import Mathlib

/-!
Verification of the markdown-to-HTML conversion pipeline (`scripts/md_to_html.py`)
and the anchored-link checker (`scripts/check_links.py`).

All text is modelled as `List Char`.  Each Python function used by a claim is
embedded as an executable Lean definition; the regex-based rewrites are embedded
at the granularity the regex engine actually works at (one attribute value, one
anchor tag, one scan position), with the engine's backtracking behaviour spelled
out where it matters.
-/

namespace MdSite

/-- The characters of a string literal: the form all text takes in this model. -/
def str (s : String) : List Char := s.data

/-- `beginsWith p s`: `p` is an initial segment of `s`. -/
def beginsWith : List Char → List Char → Bool
  | [], _ => true
  | _ :: _, [] => false
  | p :: ps, c :: cs => if p = c then beginsWith ps cs else false

/-- Number of positions of `s` at which `pat` starts (overlaps included). -/
def countOccur : List Char → List Char → Nat
  | _, [] => 0
  | pat, c :: t => (if beginsWith pat (c :: t) then 1 else 0) + countOccur pat t

/-- `endsWith p s`: `p` is a final segment of `s`. -/
def endsWith (p s : List Char) : Bool := beginsWith p.reverse s.reverse

/-- `tailOf v s`: `v` is a final segment of `s` (the positions of `s` are its
`tailOf`-segments, which is how occurrence counts are reasoned about). -/
def tailOf (v s : List Char) : Prop := ∃ u, s = u ++ v

/-- No two adjacent hyphens anywhere. -/
def noRun : List Char → Bool
  | [] => true
  | [_] => true
  | a :: b :: t => if a = '-' ∧ b = '-' then false else noRun (b :: t)

/-! ## Anchor normalization (`_normalize_anchor`) -/

/-- `re.sub(r"-" + "-+", "-", s)` : collapse every maximal run of two or more
hyphens into a single hyphen.  Dropping the first of each adjacent pair of
hyphens yields exactly that replacement. -/
def collapseHyphens : List Char → List Char
  | [] => []
  | c :: t =>
    if c = '-' ∧ t.head? = some '-' then collapseHyphens t
    else c :: collapseHyphens t

def isHyphen (c : Char) : Bool := c = '-'

/-- Python `s.strip("-")`: remove hyphens from both ends. -/
def stripHyphens (l : List Char) : List Char :=
  ((l.dropWhile isHyphen).reverse.dropWhile isHyphen).reverse

/-- `_normalize_anchor` from `md_to_html.py`. -/
def normalize_anchor (l : List Char) : List Char := stripHyphens (collapseHyphens l)

/-! ## Intra-document link rewriting (`rewrite_md_links`)

The regex is `href="([^"]+?)\.md(#[^"]*)??"`.  On one attribute value (which
contains no quote) the engine finds the leftmost position, at least one
character in, where `.md` is followed either by the end of the value (the
closing quote) or by `#`; the lazy optional group keeps the fragment, `#`
included, exactly when one is present. -/

/-- Does the remainder of the value start with `.md` followed by the end of the
value or by a fragment?  Returns the fragment (without its `#`) when present. -/
def mdHere (s : List Char) : Option (Option (List Char)) :=
  if beginsWith (str ".md") s = true then
    if s.drop 3 = [] then some none
    else if (s.drop 3).head? = some '#' then some (some (s.drop 4))
    else none
  else none

/-- Leftmost admissible split of the attribute value as
group1 ++ ".md" ++ fragment, group1 nonempty (`[^"]+?`), scanning positions
left to right exactly as the lazy group does.  `acc` holds group1 reversed. -/
def findMdSplit : List Char → List Char → Option (List Char × Option (List Char))
  | _, [] => none
  | acc, c :: t =>
    match mdHere (c :: t) with
    | some f => some (acc.reverse, f)
    | none => findMdSplit (c :: acc) t

/-- `rewrite_md_links`' substitution applied to one href attribute value:
`href="path.md[#anchor]"` becomes `href="path.html[#normalized]"`, other values
are left unchanged. -/
def rewrite_md_href (v : List Char) : List Char :=
  match v with
  | [] => []
  | a :: t =>
    match findMdSplit [a] t with
    | none => a :: t
    | some (p, none) => p ++ str ".html"
    | some (p, some frag) => p ++ str ".html" ++ '#' :: normalize_anchor frag

/-! ## Cross-document link rewriting (`rewrite_cross_page_links`) -/

/-- Association-list lookup (first match): the Page URL Map. -/
def lookupMap : List (List Char × List Char) → List Char → Option (List Char)
  | [], _ => none
  | (k, v) :: t, x => if k = x then some v else lookupMap t x

/-- `rewrite_cross_page_links`' `_replace` on one matched anchor tag.  The match
of `<a\s+href="([^"]*)"[^>]*>(.*?)</a>` is reconstructed from `ws` (what `\s+`
matched), `href` (group 1), `attrs` (what `[^>]*` matched) and `inner`
(group 2). -/
def rewrite_cross_tag (pm : List (List Char × List Char))
    (ws attrs href inner : List Char) : List Char :=
  if href.head? = some '#' ∨ beginsWith (str "http") href = true then
    str "<a" ++ ws ++ str "href=\"" ++ href ++ str "\"" ++ attrs ++ str ">" ++
      inner ++ str "</a>"
  else
    match lookupMap pm (href.takeWhile (fun c => c ≠ '#')) with
    | some url => str "<a href=\"" ++ url ++ str "\">" ++ inner ++ str "</a>"
    | none => str "<strong>" ++ inner ++ str "</strong>"

/-! ## Mermaid preprocessing (`preprocess_mermaid`, `postprocess_placeholders`) -/

/-- UTF-8 encoding of one character, as `str.encode("utf-8")` produces it. -/
def utf8Char (c : Char) : List Nat :=
  let n := c.toNat
  if n < 128 then [n]
  else if n < 2048 then [192 + n / 64, 128 + n % 64]
  else if n < 65536 then [224 + n / 4096, 128 + n / 64 % 64, 128 + n % 64]
  else [240 + n / 262144, 128 + n / 4096 % 64, 128 + n / 64 % 64, 128 + n % 64]

/-- UTF-8 byte sequence of a text. -/
def utf8Bytes (l : List Char) : List Nat := (l.map utf8Char).flatten

/-- The urlsafe base64 alphabet (`+`, `/` replaced by `-`, `_`). -/
def b64Alphabet : List Char :=
  str "ABCDEFGHIJKLMNOPQRSTUVWXYZabcdefghijklmnopqrstuvwxyz0123456789-_"

def b64Char (n : Nat) : Char := b64Alphabet.getD n 'A'

/-- `base64.urlsafe_b64encode` on a byte list, `=`-padded. -/
def b64Encode : List Nat → List Char
  | [] => []
  | [a] => [b64Char (a / 4), b64Char (a % 4 * 16), '=', '=']
  | [a, b] => [b64Char (a / 4), b64Char (a % 4 * 16 + b / 16), b64Char (b % 16 * 4), '=']
  | a :: b :: c :: rest =>
    b64Char (a / 4) :: b64Char (a % 4 * 16 + b / 16) :: b64Char (b % 16 * 4 + c / 64) ::
      b64Char (c % 64) :: b64Encode rest

/-- `_mermaid_ink_url` from `md_to_html.py`. -/
def mermaid_ink_url (d : List Char) : List Char :=
  str "https://mermaid.ink/img/" ++ b64Encode (utf8Bytes d) ++ str "?theme=neutral"

/-- Python's Unicode whitespace class, shared by `str.strip()`'s default set,
`str.isspace()` and the regex class `\s` on text patterns (CPython's
`_PyUnicode_IsWhitespace`): the control whitespace 09-0D and 1C-1F, the space
20, the next line 85, the no-break space A0, the Ogham space mark 1680, the
typographic spaces 2000-200A, the line and paragraph separators 2028 and 2029,
the narrow no-break space 202F, the medium mathematical space 205F and the
ideographic space 3000 (codepoints in hexadecimal). -/
def pyIsSpace (c : Char) : Bool :=
  (9 ≤ c.toNat && c.toNat ≤ 13) || (28 ≤ c.toNat && c.toNat ≤ 32) ||
    c.toNat = 133 || c.toNat = 160 || c.toNat = 5760 ||
    (8192 ≤ c.toNat && c.toNat ≤ 8202) || c.toNat = 8232 || c.toNat = 8233 ||
    c.toNat = 8239 || c.toNat = 8287 || c.toNat = 12288

/-- Python `s.strip()`. -/
def pyStrip (l : List Char) : List Char :=
  ((l.dropWhile pyIsSpace).reverse.dropWhile pyIsSpace).reverse

/-- The rendered-image markup block substituted for one diagram. -/
def mermaidBlock (d : List Char) : List Char :=
  str "<img class=\"mermaid-img\" src=\"" ++ mermaid_ink_url d ++
    str "\" alt=\"Mermaid diagram\" />"

def natChars (n : Nat) : List Char := Nat.toDigits 10 n

/-- The synthetic placeholder token for diagram number `n`. -/
def placeholderKey (n : Nat) : List Char :=
  str "MERMAID_PLACEHOLDER_" ++ natChars n ++ str "_END"

/-- The opening fence the pattern looks for (11 characters). -/
def mOpen : List Char := str "```mermaid\n"

/-- The backtick character, recovered from a string literal. -/
def backquote : Char := (str "`").headD ' '

/-- First closing fence: the non-greedy `(.*?)` up to the literal three
backticks, with what follows them. -/
def findClose : List Char → Option (List Char × List Char)
  | [] => none
  | c :: t =>
    if beginsWith (str "```") (c :: t) then some ([], (c :: t).drop 3)
    else
      match findClose t with
      | some (i, af) => some (c :: i, af)
      | none => none

/-- The scan of `pattern.sub(replacer, md_text)` for
`re.compile("```mermaid\n(.*?)```", re.DOTALL)`, with the replacer's counter
`n`.  Fuel-driven so that it evaluates in the kernel; the wrapper passes the
text's length, which the scan never exhausts since every step consumes at
least one character. -/
def preprocessGoF : Nat → List Char → Nat → List Char × List (List Char × List Char)
  | 0, s, _ => (s, [])
  | _ + 1, [], _ => ([], [])
  | fuel + 1, c :: t, n =>
    if beginsWith mOpen (c :: t) = true then
      match findClose ((c :: t).drop 11) with
      | some (inner, after) =>
        (placeholderKey n ++ (preprocessGoF fuel after (n + 1)).1,
          (placeholderKey n, mermaidBlock (pyStrip inner)) ::
            (preprocessGoF fuel after (n + 1)).2)
      | none =>
        (c :: (preprocessGoF fuel t n).1, (preprocessGoF fuel t n).2)
    else
      (c :: (preprocessGoF fuel t n).1, (preprocessGoF fuel t n).2)

/-- `preprocess_mermaid` from `md_to_html.py`: the processed text and the
placeholder table, in insertion order. -/
def preprocess_mermaid (s : List Char) : List Char × List (List Char × List Char) :=
  preprocessGoF s.length s 0

/-- One fuel-driven pass of Python `s.replace(pat, rep)` (nonempty `pat`):
left-to-right, non-overlapping, the replacement text never rescanned. -/
def pyReplaceF (pat rep : List Char) : Nat → List Char → List Char
  | 0, s => s
  | _ + 1, [] => []
  | fuel + 1, c :: t =>
    if pat ≠ [] ∧ beginsWith pat (c :: t) = true then
      rep ++ pyReplaceF pat rep fuel ((c :: t).drop pat.length)
    else c :: pyReplaceF pat rep fuel t

/-- Python `s.replace(pat, rep)` for nonempty `pat`. -/
def pyReplace (s pat rep : List Char) : List Char := pyReplaceF pat rep s.length s

/-- `postprocess_placeholders` from `md_to_html.py`: for each table entry, first
substitute the paragraph-wrapped token, then the bare token. -/
def postprocess_placeholders (html : List Char)
    (ph : List (List Char × List Char)) : List Char :=
  ph.foldl
    (fun h kb => pyReplace (pyReplace h (str "<p>" ++ kb.1 ++ str "</p>") kb.2) kb.1 kb.2)
    html

/-! ## Title extraction (`extract_title`)

`re.search(r"^#\s+(.+)$", md_text, re.MULTILINE)`: `^` matches at the start of
text or after a newline; `\s+` is greedy and may cross newlines; `(.+)` takes a
nonempty run of non-newline characters, after which `$` always holds.  When the
whitespace run reaches the end of the text the engine backtracks `\s+`, so the
group may consist of trailing whitespace. -/

/-- Index of the last character that is not a newline. -/
def lastNonNl : List Char → Option Nat
  | [] => none
  | c :: t =>
    match lastNonNl t with
    | some j => some (j + 1)
    | none => if c ≠ '\n' then some 0 else none

/-- Attempt `#\s+(.+)$` against `cs`, the text after a line-start `#`; returns
group 1.  `cs.takeWhile pyIsSpace` is the maximal whitespace run `\s+` can
take; when nothing follows it the engine backtracks to the last non-newline
whitespace character (at index at least 1). -/
def tryHeading (cs : List Char) : Option (List Char) :=
  if cs.takeWhile pyIsSpace = [] then none
  else if cs.drop (cs.takeWhile pyIsSpace).length ≠ [] then
    some ((cs.drop (cs.takeWhile pyIsSpace).length).takeWhile (fun c => c ≠ '\n'))
  else
    match lastNonNl ((cs.takeWhile pyIsSpace).drop 1) with
    | some j => some (((cs.takeWhile pyIsSpace).drop (j + 1)).takeWhile (fun c => c ≠ '\n'))
    | none => none

/-- `re.search`'s left-to-right scan for the pattern; `atLS` records whether the
current position is a line start. -/
def scanTitle : List Char → Bool → Option (List Char)
  | [], _ => none
  | c :: t, atLS =>
    if atLS = true ∧ c = '#' then
      match tryHeading t with
      | some g => some g
      | none => scanTitle t false
    else scanTitle t (c = '\n')

/-- `extract_title` from `md_to_html.py`. -/
def extract_title (s : List Char) : List Char :=
  match scanTitle s true with
  | some g => pyStrip g
  | none => str "Document"

/-! ## Confluence URL construction (`confluence_page_url`) -/

def hexChars : List Char := str "0123456789ABCDEF"

def hexDigitChar (n : Nat) : Char := hexChars.getD n '0'

/-- `chr b` for the printable ASCII range 32..126 — the only bytes `quote`
keeps literal. -/
def asciiChar (b : Nat) : Char :=
  (str " !\"#$%&'()*+,-./0123456789:;<=>?@ABCDEFGHIJKLMNOPQRSTUVWXYZ[\\]^_\x60abcdefghijklmnopqrstuvwxyz\x7b|\x7d~").getD
    (b - 32) '?'

/-- The bytes `urllib.parse.quote(s, safe="-_. ")` leaves unencoded: the
always-safe ASCII alphanumerics and `_.-~`, plus the given safe set `-_. `. -/
def keepByte (b : Nat) : Bool :=
  (48 ≤ b && b ≤ 57) || (65 ≤ b && b ≤ 90) || (97 ≤ b && b ≤ 122) ||
    b = 45 || b = 46 || b = 95 || b = 126 || b = 32

/-- Percent-encoding of a byte sequence, uppercase hex, as `quote` emits it. -/
def quoteBytes : List Nat → List Char
  | [] => []
  | b :: t =>
    (if keepByte b then [asciiChar b] else ['%', hexDigitChar (b / 16), hexDigitChar (b % 16)]) ++
      quoteBytes t

/-- `urllib.parse.quote(l, safe="-_. ")`. -/
def pyQuote (l : List Char) : List Char := quoteBytes (utf8Bytes l)

/-- The fixed URL prefix `CONFLUENCE_BASE + "/wiki/display/" + CONFLUENCE_SPACE + "/"`. -/
def confluencePrefix : List Char := str "https://rezolvetech.atlassian.net/wiki/display/RAIL/"

/-- The encoded path segment: the quoted title with each kept space turned into
`+` (`slug.replace(" ", "+")`). -/
def confluenceSegment (title : List Char) : List Char :=
  (pyQuote title).map (fun c => if c = ' ' then '+' else c)

/-- `confluence_page_url` from `md_to_html.py`. -/
def confluence_page_url (title : List Char) : List Char :=
  confluencePrefix ++ confluenceSegment title

/-! ## Two-tier markdown conversion (`md_to_html`) -/

def extensions : List (List Char) :=
  [str "tables", str "fenced_code", str "toc", str "nl2br", str "pymdownx.superfences"]

def safe_extensions : List (List Char) :=
  [str "tables", str "fenced_code", str "toc", str "sane_lists"]

/-- `md_to_html` from `md_to_html.py`, with the markdown library as an oracle
`render` that either returns a body or raises. -/
def md_to_html {E H : Type} (render : List (List Char) → List Char → Except E H)
    (s : List Char) : Except E H :=
  match render extensions s with
  | Except.ok b => Except.ok b
  | Except.error _ => render safe_extensions s

/-! ## The link checker (`check_links.py`) -/

/-- `re.findall(r"id=\"([^\"]+)\"", content)`: fuel-driven scan. -/
def findIdsF : Nat → List Char → List (List Char)
  | 0, _ => []
  | _ + 1, [] => []
  | fuel + 1, c :: t =>
    if beginsWith (str "id=\"") (c :: t) then
      let rest := (c :: t).drop 4
      let cap := rest.takeWhile (fun x => x ≠ '"')
      let rest2 := rest.drop cap.length
      if cap ≠ [] ∧ rest2.head? = some '"' then cap :: findIdsF fuel (rest2.drop 1)
      else findIdsF fuel t
    else findIdsF fuel t

/-- All `id="..."` attribute values of a page, in order. -/
def findIds (s : List Char) : List (List Char) := findIdsF s.length s

/-- `re.findall(r"href=\"([^\"#]+\.html)#([^\"]+)\"", content)`: the target runs
to the first `#`, must end in `.html` with at least one character before it,
and the anchor runs to the closing quote. -/
def findLinksF : Nat → List Char → List (List Char × List Char)
  | 0, _ => []
  | _ + 1, [] => []
  | fuel + 1, c :: t =>
    if beginsWith (str "href=\"") (c :: t) then
      let rest := (c :: t).drop 6
      let tgt := rest.takeWhile (fun x => x ≠ '"' ∧ x ≠ '#')
      let rest2 := rest.drop tgt.length
      if endsWith (str ".html") tgt = true ∧ 6 ≤ tgt.length ∧ rest2.head? = some '#' then
        let rest3 := rest2.drop 1
        let anchor := rest3.takeWhile (fun x => x ≠ '"')
        let rest4 := rest3.drop anchor.length
        if anchor ≠ [] ∧ rest4.head? = some '"' then
          (tgt, anchor) :: findLinksF fuel (rest4.drop 1)
        else findLinksF fuel t
      else findLinksF fuel t
    else findLinksF fuel t

/-- All cross-page anchored links `(target, anchor)` of a page, in order. -/
def findLinks (s : List Char) : List (List Char × List Char) := findLinksF s.length s

/-- `ids_by_file.get(target, set())`: the target page's id set (empty for an
unknown page). -/
def idsOfPage (pages : List (List Char × List Char)) (t : List Char) : List (List Char) :=
  match lookupMap pages t with
  | some content => findIds content
  | none => []

/-- Every `(source page, target page, anchor)` triple, pages in list order. -/
def linkRecords (pages : List (List Char × List Char)) :
    List (List Char × List Char × List Char) :=
  (pages.map (fun p => (findLinks p.2).map (fun l => (p.1, l.1, l.2)))).flatten

/-- The module-level scan of `check_links.py` on the given pages (name,
content), already in sorted order: `(total, ok, broken)`. -/
def check_links (pages : List (List Char × List Char)) :
    Nat × List (List Char × List Char × List Char) × List (List Char × List Char × List Char) :=
  let recs := linkRecords pages
  (recs.length,
   recs.filter (fun r => decide (r.2.2 ∈ idsOfPage pages r.2.1)),
   recs.filter (fun r => !decide (r.2.2 ∈ idsOfPage pages r.2.1)))

/-! # General string lemmas -/

theorem beginsWith_iff (p s : List Char) : beginsWith p s = true ↔ ∃ r, s = p ++ r := by
  induction p generalizing s with
  | nil => simp [beginsWith]
  | cons x xs ih =>
    cases s with
    | nil =>
      simp only [beginsWith, List.cons_append]
      constructor
      · intro h; cases h
      · rintro ⟨r, h⟩; cases h
    | cons c t =>
      simp only [beginsWith, List.cons_append]
      by_cases hx : x = c
      · subst hx
        rw [if_pos rfl, ih]
        constructor
        · rintro ⟨r, rfl⟩; exact ⟨r, rfl⟩
        · rintro ⟨r, h⟩
          rw [List.cons.injEq] at h
          exact ⟨r, h.2⟩
      · rw [if_neg hx]
        constructor
        · intro h; cases h
        · rintro ⟨r, h⟩
          rw [List.cons.injEq] at h
          exact absurd h.1.symm hx

theorem beginsWith_append_self (p r : List Char) : beginsWith p (p ++ r) = true :=
  (beginsWith_iff p (p ++ r)).2 ⟨r, rfl⟩

theorem beginsWith_length {p s : List Char} (h : beginsWith p s = true) :
    p.length ≤ s.length := by
  obtain ⟨r, rfl⟩ := (beginsWith_iff p s).1 h
  simp

theorem beginsWith_long {p u v : List Char} (h : beginsWith p (u ++ v) = true)
    (hl : p.length ≤ u.length) : beginsWith p u = true := by
  obtain ⟨r, hr⟩ := (beginsWith_iff p (u ++ v)).1 h
  refine (beginsWith_iff p u).2 ⟨u.drop p.length, ?_⟩
  have h1 : (u ++ v).take p.length = p := by rw [hr, List.take_left]
  rw [List.take_append_of_le_length hl] at h1
  conv_lhs => rw [← List.take_append_drop p.length u, h1]

theorem beginsWith_split {p u v : List Char} (h : beginsWith p (u ++ v) = true)
    (hl : u.length < p.length) :
    u = p.take u.length ∧ beginsWith (p.drop u.length) v = true := by
  obtain ⟨r, hr⟩ := (beginsWith_iff p (u ++ v)).1 h
  have h1 : u = (p ++ r).take u.length := by rw [← hr, List.take_left]
  have h2 : v = (p ++ r).drop u.length := by rw [← hr, List.drop_left]
  constructor
  · have h3 : (p ++ r).take u.length = p.take u.length :=
      List.take_append_of_le_length (le_of_lt hl)
    rw [← h3]
    exact h1
  · refine (beginsWith_iff (p.drop u.length) v).2 ⟨r, ?_⟩
    rw [h2, List.drop_append_of_le_length (le_of_lt hl)]

theorem beginsWith_head {p s : List Char} (h : beginsWith p s = true) (hp : p ≠ []) :
    s.head? = p.head? := by
  obtain ⟨r, rfl⟩ := (beginsWith_iff p s).1 h
  cases p with
  | nil => exact absurd rfl hp
  | cons x xs => rfl

theorem countOccur_ne_zero_of_tail {pat v s : List Char} (hv : tailOf v s) (hne : v ≠ [])
    (hb : beginsWith pat v = true) : countOccur pat s ≠ 0 := by
  obtain ⟨u, rfl⟩ := hv
  induction u with
  | nil =>
    cases v with
    | nil => exact absurd rfl hne
    | cons c t =>
      simp only [List.nil_append, countOccur, hb, if_true]
      omega
  | cons c u ih =>
    simp only [List.cons_append, countOccur]
    intro hzero
    exact ih (Nat.eq_zero_of_add_eq_zero_left hzero)

theorem countOccur_append_zero {pat : List Char} (u w : List Char)
    (h : ∀ v, tailOf v u → v ≠ [] → beginsWith pat (v ++ w) = false) :
    countOccur pat (u ++ w) = countOccur pat w := by
  induction u with
  | nil => rfl
  | cons c t ih =>
    have hfalse : beginsWith pat ((c :: t) ++ w) = false := h (c :: t) ⟨[], rfl⟩ (by simp)
    simp only [List.cons_append] at hfalse ⊢
    simp only [countOccur, hfalse, if_false]
    rw [ih fun v hv hne => h v (by obtain ⟨x, rfl⟩ := hv; exact ⟨c :: x, rfl⟩) hne]
    simp

theorem countOccur_zero_of_tail {pat v s : List Char} (hv : tailOf v s)
    (h : countOccur pat s = 0) : countOccur pat v = 0 := by
  obtain ⟨u, rfl⟩ := hv
  induction u with
  | nil => exact h
  | cons c t ih =>
    simp only [List.cons_append, countOccur] at h
    exact ih (Nat.eq_zero_of_add_eq_zero_left h)

theorem beginsWith_false_of_count_zero {pat s v : List Char} (h : countOccur pat s = 0)
    (hv : tailOf v s) (hne : v ≠ []) : beginsWith pat v = false := by
  cases hb : beginsWith pat v with
  | false => rfl
  | true => exact absurd h (countOccur_ne_zero_of_tail hv hne hb)

theorem exists_tail_of_count_ne_zero {pat s : List Char} (h : countOccur pat s ≠ 0) :
    ∃ v, tailOf v s ∧ v ≠ [] ∧ beginsWith pat v = true := by
  induction s with
  | nil => exact absurd rfl h
  | cons c t ih =>
    by_cases hb : beginsWith pat (c :: t) = true
    · exact ⟨c :: t, ⟨[], rfl⟩, by simp, hb⟩
    · have h2 : countOccur pat t ≠ 0 := by
        simp only [countOccur] at h
        rw [if_neg hb] at h
        simpa using h
      obtain ⟨v, ⟨u, hu⟩, hne, hbv⟩ := ih h2
      exact ⟨v, ⟨c :: u, by simp [hu]⟩, hne, hbv⟩

theorem countOccur_zero_of_inner {inner outer s : List Char} (x y : List Char)
    (houter : outer = x ++ inner ++ y) (h : countOccur inner s = 0) (hne : inner ≠ []) :
    countOccur outer s = 0 := by
  by_contra hc
  obtain ⟨v, hv, hne2, hb2⟩ := exists_tail_of_count_ne_zero hc
  obtain ⟨r, hr⟩ := (beginsWith_iff outer v).1 hb2
  rw [houter] at hr
  obtain ⟨u, hu⟩ := hv
  have htail : tailOf (inner ++ (y ++ r)) s := ⟨u ++ x, by rw [hu, hr]; simp⟩
  have hne3 : inner ++ (y ++ r) ≠ [] := by
    intro hcontra
    exact hne (List.append_eq_nil.mp hcontra).1
  exact countOccur_ne_zero_of_tail htail hne3 (beginsWith_append_self inner (y ++ r)) h

/-! # Anchor normalization: lemmas for C1 and C2 -/

theorem noRun_cons_iff (c : Char) (xs : List Char) :
    noRun (c :: xs) = true ↔ (¬(c = '-' ∧ xs.head? = some '-') ∧ noRun xs = true) := by
  cases xs with
  | nil => simp [noRun]
  | cons b t =>
    show (if c = '-' ∧ b = '-' then false else noRun (b :: t)) = true ↔ _
    by_cases h : c = '-' ∧ b = '-'
    · rw [if_pos h]
      simp [h.1, h.2]
    · rw [if_neg h]
      constructor
      · intro hn
        refine ⟨?_, hn⟩
        intro ⟨h1, h2⟩
        rw [List.head?_cons, Option.some.injEq] at h2
        exact h ⟨h1, h2⟩
      · exact fun hp => hp.2

theorem collapseHyphens_head (l : List Char) :
    (collapseHyphens l).head? = l.head? := by
  induction l with
  | nil => rfl
  | cons c t ih =>
    simp only [collapseHyphens]
    split
    · next h => rw [ih, h.2, List.head?_cons, h.1]
    · rfl

theorem noRun_collapseHyphens (l : List Char) : noRun (collapseHyphens l) = true := by
  induction l with
  | nil => rfl
  | cons c t ih =>
    simp only [collapseHyphens]
    split
    · exact ih
    · next h =>
      rw [noRun_cons_iff]
      refine ⟨?_, ih⟩
      rw [collapseHyphens_head]
      exact h

theorem collapseHyphens_of_noRun {l : List Char} (h : noRun l = true) :
    collapseHyphens l = l := by
  induction l with
  | nil => rfl
  | cons c t ih =>
    rw [noRun_cons_iff] at h
    simp only [collapseHyphens]
    rw [if_neg h.1, ih h.2]

theorem noRun_append_left {a b : List Char} (h : noRun (a ++ b) = true) :
    noRun a = true := by
  induction a with
  | nil => rfl
  | cons x xs ih =>
    rw [List.cons_append, noRun_cons_iff] at h
    rw [noRun_cons_iff]
    refine ⟨?_, ih h.2⟩
    intro hx
    apply h.1
    refine ⟨hx.1, ?_⟩
    obtain ⟨hx1, hx2⟩ := hx
    cases xs with
    | nil => exact absurd hx2 (by simp)
    | cons y ys =>
      rw [List.head?_cons] at hx2
      rw [List.cons_append, List.head?_cons]
      exact hx2

theorem noRun_append_right {a b : List Char} (h : noRun (a ++ b) = true) :
    noRun b = true := by
  induction a with
  | nil => exact h
  | cons x xs ih =>
    rw [List.cons_append, noRun_cons_iff] at h
    exact ih h.2

theorem tailOf_dropWhile (p : Char → Bool) (l : List Char) : tailOf (l.dropWhile p) l := by
  induction l with
  | nil => exact ⟨[], rfl⟩
  | cons c t ih =>
    by_cases h : p c = true
    · obtain ⟨u, hu⟩ := ih
      exact ⟨c :: u, by rw [List.dropWhile_cons, if_pos h, List.cons_append, ← hu]⟩
    · exact ⟨[], by rw [List.dropWhile_cons, if_neg h, List.nil_append]⟩

theorem head_dropWhile_not {p : Char → Bool} {l : List Char} {x : Char}
    (h : (l.dropWhile p).head? = some x) : p x = false := by
  induction l with
  | nil => simp [List.dropWhile] at h
  | cons c t ih =>
    rw [List.dropWhile_cons] at h
    split at h
    · exact ih h
    · next hc =>
      rw [List.head?_cons, Option.some.injEq] at h
      rw [← h]
      exact Bool.not_eq_true _ ▸ (by simpa using hc)

/-- `stripHyphens l` is a final segment of an initial segment structure:
`l.dropWhile isHyphen = stripHyphens l ++ w` for some `w`. -/
theorem stripHyphens_front (l : List Char) :
    ∃ w, l.dropWhile isHyphen = stripHyphens l ++ w := by
  unfold stripHyphens
  obtain ⟨u, hu⟩ := tailOf_dropWhile isHyphen (l.dropWhile isHyphen).reverse
  refine ⟨u.reverse, ?_⟩
  have h2 : l.dropWhile isHyphen =
      (u ++ (l.dropWhile isHyphen).reverse.dropWhile isHyphen).reverse := by
    rw [← hu, List.reverse_reverse]
  conv_lhs => rw [h2]
  rw [List.reverse_append]

theorem noRun_of_tailOf {v l : List Char} (h : noRun l = true) (hv : tailOf v l) :
    noRun v = true := by
  obtain ⟨u, rfl⟩ := hv
  exact noRun_append_right h

theorem noRun_stripHyphens {l : List Char} (h : noRun l = true) :
    noRun (stripHyphens l) = true := by
  have h1 : noRun (l.dropWhile isHyphen) = true :=
    noRun_of_tailOf h (tailOf_dropWhile isHyphen l)
  obtain ⟨w, hw⟩ := stripHyphens_front l
  exact noRun_append_left (hw ▸ h1)

theorem stripHyphens_head {l : List Char} {x : Char}
    (h : (stripHyphens l).head? = some x) : x ≠ '-' := by
  obtain ⟨w, hw⟩ := stripHyphens_front l
  have hne : stripHyphens l ≠ [] := by
    intro hc
    rw [hc] at h
    cases h
  have : (l.dropWhile isHyphen).head? = some x := by
    rw [hw]
    cases hsl : stripHyphens l with
    | nil => exact absurd hsl hne
    | cons a b =>
      rw [hsl] at h
      rw [List.cons_append, List.head?_cons]
      rw [List.head?_cons] at h
      exact h
  have := head_dropWhile_not this
  simp [isHyphen] at this
  exact this

theorem stripHyphens_last {l : List Char} {x : Char}
    (h : (stripHyphens l).getLast? = some x) : x ≠ '-' := by
  unfold stripHyphens at h
  rw [List.getLast?_reverse] at h
  have := head_dropWhile_not h
  simp [isHyphen] at this
  exact this

theorem noRun_normalize (l : List Char) : noRun (normalize_anchor l) = true :=
  noRun_stripHyphens (noRun_collapseHyphens l)

theorem normalize_head {l : List Char} {x : Char}
    (h : (normalize_anchor l).head? = some x) : x ≠ '-' := stripHyphens_head h

theorem normalize_last {l : List Char} {x : Char}
    (h : (normalize_anchor l).getLast? = some x) : x ≠ '-' := stripHyphens_last h

theorem dropWhile_eq_self_of_head {p : Char → Bool} {l : List Char}
    (h : ∀ x, l.head? = some x → p x = false) : l.dropWhile p = l := by
  cases l with
  | nil => rfl
  | cons c t =>
    rw [List.dropWhile_cons, if_neg]
    rw [h c rfl]
    simp

theorem stripHyphens_of_clean {l : List Char}
    (hh : ∀ x, l.head? = some x → x ≠ '-') (hl : ∀ x, l.getLast? = some x → x ≠ '-') :
    stripHyphens l = l := by
  unfold stripHyphens
  have h1 : l.dropWhile isHyphen = l := by
    apply dropWhile_eq_self_of_head
    intro x hx
    simpa [isHyphen] using hh x hx
  rw [h1]
  have h2 : l.reverse.dropWhile isHyphen = l.reverse := by
    apply dropWhile_eq_self_of_head
    intro x hx
    rw [List.head?_reverse] at hx
    simpa [isHyphen] using hl x hx
  rw [h2, List.reverse_reverse]

/-- C1 main fact, also reused by C2: normalization is idempotent. -/
theorem normalize_anchor_idem (s : List Char) :
    normalize_anchor (normalize_anchor s) = normalize_anchor s := by
  show stripHyphens (collapseHyphens (normalize_anchor s)) = normalize_anchor s
  rw [collapseHyphens_of_noRun (noRun_normalize s)]
  exact stripHyphens_of_clean (fun x hx => normalize_head hx) (fun x hx => normalize_last hx)

theorem beginsWith_dd (c : Char) (t : List Char) :
    beginsWith (str "--") (c :: t) = true ↔ (c = '-' ∧ t.head? = some '-') := by
  show beginsWith ('-' :: '-' :: []) (c :: t) = true ↔ _
  simp only [beginsWith]
  by_cases hc : ('-' : Char) = c
  · rw [if_pos hc]
    cases t with
    | nil =>
      simp only [beginsWith]
      constructor
      · intro h; cases h
      · intro ⟨_, h2⟩; cases h2
    | cons b t' =>
      simp only [beginsWith]
      by_cases hb : ('-' : Char) = b
      · rw [if_pos hb]
        simp [← hc, ← hb]
      · rw [if_neg hb]
        constructor
        · intro h; cases h
        · intro ⟨_, h2⟩
          rw [List.head?_cons, Option.some.injEq] at h2
          exact absurd h2.symm hb
  · rw [if_neg hc]
    constructor
    · intro h; cases h
    · intro ⟨h1, _⟩
      exact absurd h1.symm hc

theorem countOccur_dd_eq_zero_iff (l : List Char) :
    countOccur (str "--") l = 0 ↔ noRun l = true := by
  induction l with
  | nil => simp [countOccur, noRun]
  | cons c t ih =>
    simp only [countOccur]
    rw [noRun_cons_iff]
    constructor
    · intro h
      have h1 : beginsWith (str "--") (c :: t) ≠ true := by
        intro hb
        rw [hb, if_pos rfl] at h
        omega
      refine ⟨fun hx => h1 ((beginsWith_dd c t).2 hx), ih.1 ?_⟩
      rw [if_neg h1] at h
      omega
    · intro ⟨h1, h2⟩
      have hb : beginsWith (str "--") (c :: t) ≠ true := fun hb =>
        h1 ((beginsWith_dd c t).1 hb)
      rw [if_neg hb, ih.2 h2]

/-! # Intra-document link rewriting: lemmas for C3 -/

theorem endsWith_iff (p s : List Char) : endsWith p s = true ↔ tailOf p s := by
  unfold endsWith
  rw [beginsWith_iff]
  constructor
  · rintro ⟨r, hr⟩
    refine ⟨r.reverse, ?_⟩
    have := congrArg List.reverse hr
    rw [List.reverse_reverse, List.reverse_append, List.reverse_reverse] at this
    exact this
  · rintro ⟨u, rfl⟩
    exact ⟨u.reverse, by rw [List.reverse_append]⟩

theorem mdHere_eq_some {s : List Char} {f : Option (List Char)} (h : mdHere s = some f) :
    (s = str ".md" ∧ f = none) ∨ ∃ a, s = str ".md#" ++ a ∧ f = some a := by
  unfold mdHere at h
  split at h
  · next hb =>
    obtain ⟨r, rfl⟩ := (beginsWith_iff _ _).1 hb
    have hd3 : (str ".md" ++ r).drop 3 = r := rfl
    have hd4 : (str ".md" ++ r).drop 4 = r.drop 1 := rfl
    rw [hd3, hd4] at h
    split at h
    · next hr =>
      left
      injection h with h'
      exact ⟨by rw [hr, List.append_nil], h'.symm⟩
    · split at h
      · next hh =>
        right
        cases r with
        | nil => cases hh
        | cons q r' =>
          rw [List.head?_cons, Option.some.injEq] at hh
          subst hh
          injection h with h'
          refine ⟨r', ?_, h'.symm⟩
          rfl
      · cases h
  · cases h

theorem mdHere_md : mdHere (str ".md") = some none := by decide

theorem mdHere_mdhash (a : List Char) : mdHere (str ".md#" ++ a) = some (some a) := by
  have hb : beginsWith (str ".md") (str ".md#" ++ a) = true := by
    have he : str ".md#" ++ a = str ".md" ++ ('#' :: a) := rfl
    rw [he]
    exact beginsWith_append_self _ _
  have hd3 : (str ".md#" ++ a).drop 3 = '#' :: a := rfl
  have hd4 : (str ".md#" ++ a).drop 4 = a := rfl
  simp [mdHere, hb, hd3, hd4]

/-- No admissible match can start strictly inside `p` when `p` contains no
occurrence of `".md#"`, the remainder being `p`'s end followed by
`".md" ++ tail0`. -/
theorem mdHere_none_inside {pfull : List Char} (tail0 : List Char)
    (hcnt : countOccur (str ".md#") pfull = 0)
    {v : List Char} (hv : tailOf v pfull) (hne : v ≠ []) :
    mdHere (v ++ (str ".md" ++ tail0)) = none := by
  cases hm : mdHere (v ++ (str ".md" ++ tail0)) with
  | none => rfl
  | some f =>
    exfalso
    rcases mdHere_eq_some hm with ⟨heq, _⟩ | ⟨a, heq, _⟩
    · have hlen := congrArg List.length heq
      have h3 : (str ".md").length = 3 := rfl
      rw [List.length_append, List.length_append, h3] at hlen
      have : v.length = 0 := by omega
      exact hne (List.length_eq_zero.mp this)
    · have e2 : str ".md#" = '.' :: 'm' :: 'd' :: '#' :: [] := rfl
      have e1 : str ".md" = '.' :: 'm' :: 'd' :: [] := rfl
      rw [e1, e2] at heq
      cases v with
      | nil => exact hne rfl
      | cons x v1 =>
        cases v1 with
        | nil =>
          simp only [List.cons_append, List.nil_append] at heq
          injection heq with h1 heq
          injection heq with h2 heq
          exact absurd h2 (by decide)
        | cons y v2 =>
          cases v2 with
          | nil =>
            simp only [List.cons_append, List.nil_append] at heq
            injection heq with h1 heq
            injection heq with h2 heq
            injection heq with h3 heq
            exact absurd h3 (by decide)
          | cons z w =>
            simp only [List.cons_append] at heq
            injection heq with h1 heq
            injection heq with h2 heq
            injection heq with h3 heq
            subst h1; subst h2; subst h3
            cases w with
            | nil =>
              simp only [List.nil_append] at heq
              injection heq with h4 heq
              exact absurd h4 (by decide)
            | cons q w' =>
              simp only [List.cons_append] at heq
              injection heq with h4 heq
              subst h4
              have hbv : beginsWith (str ".md#") ('.' :: 'm' :: 'd' :: '#' :: w') = true := by
                have he : ('.' :: 'm' :: 'd' :: '#' :: w' : List Char) = str ".md#" ++ w' := rfl
                rw [he]
                exact beginsWith_append_self _ _
              exact countOccur_ne_zero_of_tail hv hne hbv hcnt

theorem findMdSplit_append (t : List Char) :
    ∀ (acc rest : List Char),
      (∀ v, tailOf v t → v ≠ [] → mdHere (v ++ rest) = none) →
      findMdSplit acc (t ++ rest) = findMdSplit (t.reverse ++ acc) rest := by
  induction t with
  | nil =>
    intro acc rest _
    simp
  | cons c t' ih =>
    intro acc rest h
    have hm : mdHere (c :: (t' ++ rest)) = none := by
      have := h (c :: t') ⟨[], rfl⟩ (by simp)
      rwa [List.cons_append] at this
    rw [List.cons_append]
    show findMdSplit acc (c :: (t' ++ rest)) = _
    simp only [findMdSplit, hm]
    rw [ih (c :: acc) rest
      (fun v hv hne => h v (by obtain ⟨u, rfl⟩ := hv; exact ⟨c :: u, rfl⟩) hne)]
    congr 1
    simp

theorem findMdSplit_none (t : List Char) :
    ∀ acc : List Char, (∀ v, tailOf v t → mdHere v = none) →
      findMdSplit acc t = none := by
  induction t with
  | nil => intro acc _; rfl
  | cons c t' ih =>
    intro acc h
    have hm : mdHere (c :: t') = none := h (c :: t') ⟨[], rfl⟩
    simp only [findMdSplit, hm]
    exact ih (c :: acc) (fun v hv => h v (by obtain ⟨u, rfl⟩ := hv; exact ⟨c :: u, rfl⟩))

theorem findMdSplit_at_md (acc : List Char) :
    findMdSplit acc (str ".md") = some (acc.reverse, none) := by
  show findMdSplit acc ('.' :: 'm' :: 'd' :: []) = _
  simp only [findMdSplit]
  rw [show mdHere ('.' :: 'm' :: 'd' :: []) = some none from mdHere_md]

theorem findMdSplit_at_mdhash (acc f : List Char) :
    findMdSplit acc (str ".md#" ++ f) = some (acc.reverse, some f) := by
  have he : str ".md#" ++ f = '.' :: 'm' :: 'd' :: '#' :: f := rfl
  rw [he]
  simp only [findMdSplit]
  rw [show mdHere ('.' :: 'm' :: 'd' :: '#' :: f) = some (some f) from mdHere_mdhash f]

/-- The positive half of C3's rule, no fragment: an href value `p ++ ".md"`
with `".md#"` nowhere in `p` (and `p` nonempty) is rewritten to `p ++ ".html"`. -/
theorem rewrite_md_href_md {p : List Char} (hp : p ≠ [])
    (hcnt : countOccur (str ".md#") p = 0) :
    rewrite_md_href (p ++ str ".md") = p ++ str ".html" := by
  cases p with
  | nil => exact absurd rfl hp
  | cons a p' =>
    have hskip := findMdSplit_append p' [a] (str ".md" ++ [])
      (fun v hv hne =>
        mdHere_none_inside [] hcnt (by obtain ⟨u, rfl⟩ := hv; exact ⟨a :: u, rfl⟩) hne)
    rw [List.append_nil] at hskip
    show rewrite_md_href (a :: (p' ++ str ".md")) = _
    simp only [rewrite_md_href]
    rw [hskip, findMdSplit_at_md]
    simp

/-- The positive half of C3's rule, with fragment: an href value
`p ++ ".md#" ++ f` with `".md#"` nowhere in `p` (and `p` nonempty) is rewritten
to `p ++ ".html#" ++ normalize(f)`. -/
theorem rewrite_md_href_mdhash {p : List Char} (f : List Char) (hp : p ≠ [])
    (hcnt : countOccur (str ".md#") p = 0) :
    rewrite_md_href (p ++ str ".md#" ++ f) = p ++ str ".html#" ++ normalize_anchor f := by
  cases p with
  | nil => exact absurd rfl hp
  | cons a p' =>
    have hrest : str ".md#" ++ f = str ".md" ++ ('#' :: f) := rfl
    have hskip := findMdSplit_append p' [a] (str ".md" ++ ('#' :: f))
      (fun v hv hne =>
        mdHere_none_inside ('#' :: f) hcnt (by obtain ⟨u, rfl⟩ := hv; exact ⟨a :: u, rfl⟩) hne)
    rw [← hrest] at hskip
    have hassoc : (a :: p') ++ str ".md#" ++ f = a :: (p' ++ (str ".md#" ++ f)) := by
      simp
    rw [hassoc]
    show rewrite_md_href (a :: (p' ++ (str ".md#" ++ f))) = _
    simp only [rewrite_md_href]
    rw [hskip, findMdSplit_at_mdhash]
    have hout : str ".html#" ++ normalize_anchor f = str ".html" ++ '#' :: normalize_anchor f := rfl
    simp [hout]

/-- The negative half of C3's rule: an href value that does not end in `".md"`
and contains no `".md#"` is left unchanged. -/
theorem rewrite_md_href_unchanged {v : List Char}
    (h1 : endsWith (str ".md") v = false) (h2 : countOccur (str ".md#") v = 0) :
    rewrite_md_href v = v := by
  cases v with
  | nil => rfl
  | cons a t =>
    have hnone : findMdSplit [a] t = none := by
      apply findMdSplit_none
      intro w hw
      cases hm : mdHere w with
      | none => rfl
      | some f =>
        exfalso
        obtain ⟨u, hu⟩ := hw
        rcases mdHere_eq_some hm with ⟨heq, _⟩ | ⟨x, heq, _⟩
        · subst heq
          have : tailOf (str ".md") (a :: t) := ⟨a :: u, by rw [hu]; rfl⟩
          rw [(endsWith_iff _ _).2 this] at h1
          cases h1
        · subst heq
          have htail : tailOf (str ".md#" ++ x) (a :: t) := ⟨a :: u, by rw [hu]; rfl⟩
          exact countOccur_ne_zero_of_tail htail (by simp [str])
            (beginsWith_append_self _ _) h2
    show rewrite_md_href (a :: t) = _
    simp only [rewrite_md_href, hnone]

/-! # Claims C1 and C2 -/

/-- C1: anchor normalization is idempotent: for every input string `s`,
`normalize(normalize(s)) == normalize(s)`. -/
theorem claim_C1_normalize_idempotent (s : List Char) :
    normalize_anchor (normalize_anchor s) = normalize_anchor s :=
  normalize_anchor_idem s

/-- C2: anchor normalization collapses every maximal run of two or more hyphens
to one hyphen and trims leading/trailing hyphens: `normalize("a----b") = "a-b"`,
`normalize("-lead-trail-") = "lead-trail"`, and for every input the output has
no two adjacent hyphens and neither starts nor ends with a hyphen. -/
theorem claim_C2_normalize_collapses_and_trims :
    normalize_anchor (str "a----b") = str "a-b" ∧
    normalize_anchor (str "-lead-trail-") = str "lead-trail" ∧
    ∀ s : List Char,
      countOccur (str "--") (normalize_anchor s) = 0 ∧
      (normalize_anchor s).head? ≠ some '-' ∧
      (normalize_anchor s).getLast? ≠ some '-' := by
  refine ⟨by decide, by decide, fun s => ⟨?_, ?_, ?_⟩⟩
  · exact (countOccur_dd_eq_zero_iff _).2 (noRun_normalize s)
  · intro h
    exact normalize_head h rfl
  · intro h
    exact normalize_last h rfl

/-! # Claim C3 -/

/-- C3 counterexample: the attribute value `".md"` ends in `".md"` (with an
empty stem), yet `rewrite_md_links` leaves it unchanged — the regex group
`[^"]+?` requires at least one character before `".md"` — whereas the claim
says every href whose target ends in `".md"` gets `".html"` instead. -/
theorem claim_C3_counterexample :
    rewrite_md_href (str ".md") = str ".md" ∧ str ".md" ≠ str ".html" :=
  ⟨by decide, by decide⟩

/-- C3 (amended): `href="x.md#Section--One"` becomes `href="x.html#Section-One"`
and `href="x.md"` becomes `href="x.html"`; in general a value `p ++ ".md"`
(resp. `p ++ ".md#" ++ f`) with `p` nonempty and `".md#"` not occurring in `p`
is rewritten to `p ++ ".html"` (resp. `p ++ ".html#" ++ normalize f`), and a
value that neither ends in `".md"` nor contains `".md#"` is left unchanged. -/
theorem claim_C3_amended_rewrite (p f : List Char) (hp : p ≠ [])
    (hcnt : countOccur (str ".md#") p = 0) :
    rewrite_md_href (str "x.md#Section--One") = str "x.html#Section-One" ∧
    rewrite_md_href (str "x.md") = str "x.html" ∧
    rewrite_md_href (p ++ str ".md") = p ++ str ".html" ∧
    rewrite_md_href (p ++ str ".md#" ++ f) = p ++ str ".html#" ++ normalize_anchor f ∧
    ∀ v : List Char, endsWith (str ".md") v = false → countOccur (str ".md#") v = 0 →
      rewrite_md_href v = v :=
  ⟨by decide, by decide, rewrite_md_href_md hp hcnt, rewrite_md_href_mdhash f hp hcnt,
    fun _ h1 h2 => rewrite_md_href_unchanged h1 h2⟩

theorem claim_C3_amended_witness :
    (str "docs/page" : List Char) ≠ [] ∧
    countOccur (str ".md#") (str "docs/page") = 0 ∧
    rewrite_md_href (str "docs/page" ++ str ".md#" ++ str "Sec--1") =
      str "docs/page" ++ str ".html#" ++ normalize_anchor (str "Sec--1") :=
  ⟨by decide, by decide,
    (claim_C3_amended_rewrite (str "docs/page") (str "Sec--1") (by decide)
      (by decide)).2.2.2.1⟩

/-! # Claims C4 and C10 -/

/-- C4: the cross-document rewrite passes same-page (`#...`) and external
(`http...`) links through unchanged; every other link has its fragment
stripped and the rest looked up in the Page URL Map — a hit becomes a plain
link to the mapped URL with the anchor dropped, a miss becomes the inner text
in `<strong>`.  Shown on the claim's four examples and in general. -/
theorem claim_C4_cross_page_classification
    (pm : List (List Char × List Char)) (ws attrs href inner url : List Char) :
    (rewrite_cross_tag [(str "b.html", str "https://wiki/b")] (str " ") []
        (str "b.html#sec") (str "text") = str "<a href=\"https://wiki/b\">text</a>") ∧
    (rewrite_cross_tag [(str "b.html", str "https://wiki/b")] (str " ") []
        (str "z.html") (str "text") = str "<strong>text</strong>") ∧
    (rewrite_cross_tag [(str "b.html", str "https://wiki/b")] (str " ") []
        (str "#sec") (str "text") = str "<a href=\"#sec\">text</a>") ∧
    (rewrite_cross_tag [(str "b.html", str "https://wiki/b")] (str " ") []
        (str "https://x") (str "text") = str "<a href=\"https://x\">text</a>") ∧
    (href.head? = some '#' ∨ beginsWith (str "http") href = true →
      rewrite_cross_tag pm ws attrs href inner =
        str "<a" ++ ws ++ str "href=\"" ++ href ++ str "\"" ++ attrs ++ str ">" ++
          inner ++ str "</a>") ∧
    (¬(href.head? = some '#' ∨ beginsWith (str "http") href = true) →
      lookupMap pm (href.takeWhile (fun c => c ≠ '#')) = some url →
      rewrite_cross_tag pm ws attrs href inner =
        str "<a href=\"" ++ url ++ str "\">" ++ inner ++ str "</a>") ∧
    (¬(href.head? = some '#' ∨ beginsWith (str "http") href = true) →
      lookupMap pm (href.takeWhile (fun c => c ≠ '#')) = none →
      rewrite_cross_tag pm ws attrs href inner =
        str "<strong>" ++ inner ++ str "</strong>") := by
  refine ⟨by decide, by decide, by decide, by decide, ?_, ?_, ?_⟩
  · intro h
    simp only [rewrite_cross_tag, if_pos h]
  · intro h hl
    simp only [rewrite_cross_tag, if_neg h, hl]
  · intro h hl
    simp only [rewrite_cross_tag, if_neg h, hl]

/-- C10: on a Page URL Map hit the rewritten tag is exactly
`<a href="URL">inner</a>` — the original tag's whitespace and extra attributes
are discarded and the inner text kept verbatim — and on a miss it is exactly
`<strong>inner</strong>`; in both branches the output does not depend on the
original tag's attributes. -/
theorem claim_C10_mapped_tag_shape
    (pm : List (List Char × List Char)) (ws ws' attrs attrs' href inner url : List Char)
    (hnh : ¬(href.head? = some '#' ∨ beginsWith (str "http") href = true)) :
    (lookupMap pm (href.takeWhile (fun c => c ≠ '#')) = some url →
      rewrite_cross_tag pm ws attrs href inner =
        str "<a href=\"" ++ url ++ str "\">" ++ inner ++ str "</a>" ∧
      rewrite_cross_tag pm ws attrs href inner =
        rewrite_cross_tag pm ws' attrs' href inner) ∧
    (lookupMap pm (href.takeWhile (fun c => c ≠ '#')) = none →
      rewrite_cross_tag pm ws attrs href inner =
        str "<strong>" ++ inner ++ str "</strong>" ∧
      rewrite_cross_tag pm ws attrs href inner =
        rewrite_cross_tag pm ws' attrs' href inner) := by
  constructor
  · intro hl
    constructor
    · simp only [rewrite_cross_tag, if_neg hnh, hl]
    · simp only [rewrite_cross_tag, if_neg hnh, hl]
  · intro hl
    constructor
    · simp only [rewrite_cross_tag, if_neg hnh, hl]
    · simp only [rewrite_cross_tag, if_neg hnh, hl]

/-! # Confluence URL construction: lemmas for C8 -/

theorem char_toNat_lt (c : Char) : c.toNat < 1114112 := by
  rcases (show c.toNat < 55296 ∨ (57344 ≤ c.toNat ∧ c.toNat < 1114112) from c.valid) with
    h | ⟨_, h⟩
  · omega
  · exact h

theorem utf8Char_lt (c : Char) : ∀ b ∈ utf8Char c, b < 256 := by
  intro b hb
  have hv := char_toNat_lt c
  simp only [utf8Char] at hb
  split at hb
  · next h => simp at hb; omega
  · split at hb
    · next h => simp at hb; rcases hb with rfl | rfl <;> omega
    · split at hb
      · next h => simp at hb; rcases hb with rfl | rfl | rfl <;> omega
      · simp at hb; rcases hb with rfl | rfl | rfl | rfl <;> omega

theorem utf8Bytes_lt (l : List Char) : ∀ b ∈ utf8Bytes l, b < 256 := by
  intro b hb
  simp only [utf8Bytes, List.mem_flatten, List.mem_map] at hb
  obtain ⟨bs, ⟨c, _, rfl⟩, hmem⟩ := hb
  exact utf8Char_lt c b hmem

theorem getD_mem_or_eq (l : List Char) (n : Nat) (d : Char) :
    l.getD n d ∈ l ∨ l.getD n d = d := by
  induction l generalizing n with
  | nil => right; cases n <;> rfl
  | cons x t ih =>
    cases n with
    | zero =>
      have h0 : (x :: t).getD 0 d = x := rfl
      rw [h0]
      exact Or.inl (List.mem_cons_self x t)
    | succ n' =>
      have h1 : (x :: t).getD (n' + 1) d = t.getD n' d := rfl
      rw [h1]
      rcases ih n' with h | h
      · exact Or.inl (List.mem_cons_of_mem _ h)
      · exact Or.inr h

theorem hexDigitChar_ne_percent (n : Nat) : hexDigitChar n ≠ '%' := by
  intro he
  unfold hexDigitChar at he
  rcases getD_mem_or_eq hexChars n '0' with h | h
  · rw [he] at h
    exact absurd h (by decide)
  · rw [h] at he
    exact absurd he (by decide)

theorem hexDigitChar_ne_space (n : Nat) : hexDigitChar n ≠ ' ' := by
  intro he
  unfold hexDigitChar at he
  rcases getD_mem_or_eq hexChars n '0' with h | h
  · rw [he] at h
    exact absurd h (by decide)
  · rw [h] at he
    exact absurd he (by decide)

theorem hexDigitChar_eq_two {d : Nat} (hd : d < 16) (h : hexDigitChar d = '2') : d = 2 := by
  have hall : ∀ e < 16, hexDigitChar e = '2' → e = 2 := by decide
  exact hall d hd h

theorem hexDigitChar_eq_zero {d : Nat} (hd : d < 16) (h : hexDigitChar d = '0') : d = 0 := by
  have hall : ∀ e < 16, hexDigitChar e = '0' → e = 0 := by decide
  exact hall d hd h

theorem keepByte_lt {b : Nat} (h : keepByte b = true) : b < 128 := by
  simp only [keepByte, Bool.or_eq_true, Bool.and_eq_true, decide_eq_true_eq] at h
  omega

theorem asciiChar_keep_ne_percent : ∀ b < 128, keepByte b = true → asciiChar b ≠ '%' := by
  decide

theorem asciiChar_keep_space : ∀ b < 128, keepByte b = true → asciiChar b = ' ' → b = 32 := by
  decide

theorem tailOf_cons_elim {v : List Char} {x : Char} {xs : List Char}
    (h : tailOf v (x :: xs)) : v = x :: xs ∨ tailOf v xs := by
  obtain ⟨u, hu⟩ := h
  cases u with
  | nil => exact Or.inl hu.symm
  | cons y u' =>
    rw [List.cons_append] at hu
    injection hu with _ h2
    exact Or.inr ⟨u', h2⟩

theorem tailOf_nil_elim {v : List Char} (h : tailOf v []) : v = [] := by
  obtain ⟨u, hu⟩ := h
  have hlen := congrArg List.length hu
  simp at hlen
  exact List.length_eq_zero.mp (by omega)

theorem beginsWith_cons_false {p0 : Char} {ps : List Char} {x : Char} {R : List Char}
    (h : p0 ≠ x) : beginsWith (p0 :: ps) (x :: R) = false := by
  simp only [beginsWith, if_neg h]

theorem count20_quote : ∀ bs : List Nat, (∀ b ∈ bs, b < 256) →
    countOccur (str "%20")
      ((quoteBytes bs).map (fun c => if c = ' ' then '+' else c)) = 0 := by
  intro bs
  induction bs with
  | nil => intro _; rfl
  | cons b t ih =>
    intro hlt
    have hrec := ih (fun x hx => hlt x (List.mem_cons_of_mem _ hx))
    have hb256 : b < 256 := hlt b (List.mem_cons_self b t)
    cases hk : keepByte b with
    | true =>
      have he : quoteBytes (b :: t) = [asciiChar b] ++ quoteBytes t := by
        simp only [quoteBytes, hk, if_true]
      rw [he, List.map_append]
      have hm1 : ([asciiChar b].map (fun c => if c = ' ' then '+' else c)) =
          [if asciiChar b = ' ' then '+' else asciiChar b] := rfl
      rw [hm1]
      have hfx : (if asciiChar b = ' ' then '+' else asciiChar b) ≠ '%' := by
        by_cases hsp : asciiChar b = ' '
        · rw [if_pos hsp]; decide
        · rw [if_neg hsp]; exact asciiChar_keep_ne_percent b (keepByte_lt hk) hk
      rw [countOccur_append_zero _ _ ?_]
      · exact hrec
      · intro v hv hne
        rcases tailOf_cons_elim hv with rfl | h0
        · rw [List.cons_append, List.nil_append]
          exact beginsWith_cons_false (Ne.symm hfx)
        · exact absurd (tailOf_nil_elim h0) hne
    | false =>
      have he : quoteBytes (b :: t) =
          ['%', hexDigitChar (b / 16), hexDigitChar (b % 16)] ++ quoteBytes t := by
        simp only [quoteBytes, hk]
        rfl
      rw [he, List.map_append]
      have hm1 : (['%', hexDigitChar (b / 16), hexDigitChar (b % 16)].map
            (fun c => if c = ' ' then '+' else c)) =
          ['%', hexDigitChar (b / 16), hexDigitChar (b % 16)] := by
        have e0 : ((if ('%' : Char) = ' ' then '+' else '%') : Char) = '%' := by decide
        have e1 : (if hexDigitChar (b / 16) = ' ' then '+' else hexDigitChar (b / 16)) =
            hexDigitChar (b / 16) := if_neg (hexDigitChar_ne_space _)
        have e2 : (if hexDigitChar (b % 16) = ' ' then '+' else hexDigitChar (b % 16)) =
            hexDigitChar (b % 16) := if_neg (hexDigitChar_ne_space _)
        simp only [List.map_cons, List.map_nil, e0, e1, e2]
      rw [hm1]
      rw [countOccur_append_zero _ _ ?_]
      · exact hrec
      · intro v hv hne
        rcases tailOf_cons_elim hv with rfl | h0
        · -- the whole triple: would force b = 32, a kept byte
          rw [List.cons_append]
          show beginsWith ('%' :: '2' :: '0' :: []) _ = false
          simp only [beginsWith, if_pos rfl]
          by_cases h12 : ('2' : Char) = hexDigitChar (b / 16)
          · rw [if_pos h12]
            by_cases h10 : ('0' : Char) = hexDigitChar (b % 16)
            · exfalso
              have hd2 : b / 16 = 2 := hexDigitChar_eq_two (by omega) h12.symm
              have hd0 : b % 16 = 0 := hexDigitChar_eq_zero (by omega) h10.symm
              have hb32 : b = 32 := by omega
              rw [hb32] at hk
              exact absurd hk (by decide)
            · rw [if_neg h10]
              simp
          · rw [if_neg h12]
            simp
        rcases tailOf_cons_elim h0 with rfl | h1
        · rw [List.cons_append]
          exact beginsWith_cons_false (Ne.symm (hexDigitChar_ne_percent _))
        rcases tailOf_cons_elim h1 with rfl | h2
        · rw [List.cons_append]
          exact beginsWith_cons_false (Ne.symm (hexDigitChar_ne_percent _))
        · exact absurd (tailOf_nil_elim h2) hne

/-! # Claim C8 -/

/-- C8: the canonical URL is the fixed base path followed by the
percent-encoded title as a path segment; spaces in the segment are rendered as
literal `+`, never as `%20`; `"A/B Design"` yields a segment whose `/` is
percent-encoded and whose space appears as `+`. -/
theorem claim_C8_confluence_url (t : List Char) :
    confluence_page_url (str "A/B Design") =
      str "https://rezolvetech.atlassian.net/wiki/display/RAIL/A%2FB+Design" ∧
    confluence_page_url t = confluencePrefix ++ confluenceSegment t ∧
    (∀ c ∈ confluenceSegment t, c ≠ ' ') ∧
    countOccur (str "%20") (confluenceSegment t) = 0 := by
  refine ⟨by decide, rfl, ?_, ?_⟩
  · intro c hc
    simp only [confluenceSegment] at hc
    obtain ⟨x, _, rfl⟩ := List.mem_map.mp hc
    by_cases hx : x = ' '
    · rw [if_pos hx]; decide
    · rw [if_neg hx]; exact hx
  · show countOccur (str "%20")
      ((quoteBytes (utf8Bytes t)).map (fun c => if c = ' ' then '+' else c)) = 0
    exact count20_quote (utf8Bytes t) (utf8Bytes_lt t)

/-! # Claim C6 -/

theorem length_filter_split {α : Type} (l : List α) (p : α → Bool) :
    l.length = (l.filter p).length + (l.filter (fun x => !(p x))).length := by
  induction l with
  | nil => rfl
  | cons x xs ih =>
    by_cases h : p x = true
    · simp only [List.filter_cons, h, Bool.not_true, List.length_cons, ih]
      simp
      omega
    · have hf : p x = false := by simpa using h
      simp only [List.filter_cons, hf, Bool.not_false, List.length_cons, ih]
      simp
      omega

/-- C6: on the claim's two-page scenario the checker reports total 1, no OK
link and the one broken record `(A.html, B.html, missing-id)`; in general a
link record is in the OK list exactly when it was extracted and its anchor is
in the target page's id set, and total is the count of OK plus broken. -/
theorem claim_C6_checker_end_to_end
    (pages : List (List Char × List Char)) (s t a : List Char) :
    (check_links [(str "A.html", str "<p><a href=\"B.html#missing-id\">x</a></p>"),
        (str "B.html", str "<h1 id=\"other-id\">B</h1>")]).1 = 1 ∧
    (check_links [(str "A.html", str "<p><a href=\"B.html#missing-id\">x</a></p>"),
        (str "B.html", str "<h1 id=\"other-id\">B</h1>")]).2.1 = [] ∧
    (check_links [(str "A.html", str "<p><a href=\"B.html#missing-id\">x</a></p>"),
        (str "B.html", str "<h1 id=\"other-id\">B</h1>")]).2.2 =
      [(str "A.html", str "B.html", str "missing-id")] ∧
    findIds (str "<h1 id=\"other-id\">B</h1>") = [str "other-id"] ∧
    ((s, t, a) ∈ (check_links pages).2.1 ↔
      (s, t, a) ∈ linkRecords pages ∧ a ∈ idsOfPage pages t) ∧
    (check_links pages).1 =
      (check_links pages).2.1.length + (check_links pages).2.2.length := by
  refine ⟨by decide, by decide, by decide, by decide, ?_, ?_⟩
  · show (s, t, a) ∈ (linkRecords pages).filter _ ↔ _
    rw [List.mem_filter]
    simp only [decide_eq_true_eq]
  · exact length_filter_split (linkRecords pages) _

/-! # Claim C7 -/

/-- C7: the converter first renders with the full extension set; if that
succeeds the result is returned unchanged; if and only if it raises, one retry
is made with the reduced safe set, whose own exception (if any) propagates as
the final result with no further fallback. -/
theorem claim_C7_two_tier_conversion {E H : Type}
    (render : List (List Char) → List Char → Except E H) (s : List Char) :
    (∀ b, render extensions s = Except.ok b → md_to_html render s = Except.ok b) ∧
    (∀ e, render extensions s = Except.error e →
      md_to_html render s = render safe_extensions s) ∧
    (∀ e e', render extensions s = Except.error e →
      render safe_extensions s = Except.error e' →
      md_to_html render s = Except.error e') := by
  refine ⟨?_, ?_, ?_⟩
  · intro b h
    simp only [md_to_html, h]
  · intro e h
    simp only [md_to_html, h]
  · intro e e' h h'
    simp only [md_to_html, h, h']

/-! # Claim C9 -/

/-- C9 counterexample: in `"#" + newline + "# Real"` the regex's `\s+` crosses
the newline, so extraction returns `"# Real"` — neither the text `"Real"` of
the first heading nor the fallback `"Document"`, contradicting the claim under
any reading. -/
theorem claim_C9_counterexample :
    extract_title (str "#\n# Real") = str "# Real" ∧
    str "# Real" ≠ str "Real" ∧ str "# Real" ≠ str "Document" :=
  ⟨by decide, by decide, by decide⟩

theorem takeWhile_append_stop {t post : List Char} (hnl : '\n' ∉ t) :
    (t ++ '\n' :: post).takeWhile (fun c => c ≠ '\n') = t := by
  induction t with
  | nil =>
    rw [List.nil_append, List.takeWhile_cons, if_neg (by simp)]
  | cons c t' ih =>
    have hcne : (fun x => decide (x ≠ '\n')) c = true := by
      simp only [decide_eq_true_eq]
      intro he
      exact hnl (he ▸ List.mem_cons_self c t')
    rw [List.cons_append, List.takeWhile_cons, if_pos hcne,
      ih fun hm => hnl (List.mem_cons_of_mem _ hm)]

theorem scanTitle_none_of_no_hash {s : List Char} (h : '#' ∉ s) :
    ∀ b, scanTitle s b = none := by
  induction s with
  | nil => intro b; rfl
  | cons c t ih =>
    intro b
    have hc : ¬(b = true ∧ c = '#') := by
      intro ⟨_, hc⟩
      exact h (hc ▸ List.mem_cons_self c t)
    simp only [scanTitle, if_neg hc]
    exact ih (fun hm => h (List.mem_cons_of_mem _ hm)) _

theorem takeWhile_space_all {w : List Char} (r : List Char)
    (h : ∀ c ∈ w, pyIsSpace c = true) :
    (w ++ r).takeWhile pyIsSpace = w ++ r.takeWhile pyIsSpace := by
  induction w with
  | nil => rw [List.nil_append, List.nil_append]
  | cons c w' ih =>
    rw [List.cons_append, List.takeWhile_cons, if_pos (h c (List.mem_cons_self c w')),
      ih (fun x hx => h x (List.mem_cons_of_mem _ hx)), List.cons_append]

theorem scanTitle_skip : ∀ (pre : List Char), '#' ∉ pre → pre.getLast? = some '\n' →
    ∀ (rest : List Char) (b : Bool), scanTitle (pre ++ rest) b = scanTitle rest true := by
  intro pre
  induction pre with
  | nil => intro _ hlast; cases hlast
  | cons c pre' ih =>
    intro hpre hlast rest b
    have hc : ¬(b = true ∧ c = '#') := by
      intro ⟨_, h2⟩
      exact hpre (h2 ▸ List.mem_cons_self c pre')
    rw [List.cons_append]
    simp only [scanTitle, if_neg hc]
    cases pre' with
    | nil =>
      have hcn : c = '\n' := by simpa using hlast
      subst hcn
      rw [List.nil_append]
      rfl
    | cons d pre'' =>
      rw [List.getLast?_cons_cons] at hlast
      exact ih (fun hm => hpre (List.mem_cons_of_mem _ hm)) hlast rest _

/-- C9 (amended): extraction returns, for the first line-start `#` — no `#`
occurs before it, and it sits at the start of the text or right after a
newline — followed by a nonempty run of Unicode whitespace (which may span
line breaks) and then a nonempty stretch of a line, that stretch stripped:
`"# My Title\n\nbody"` yields `"My Title"`, and in general
`pre ++ "#" ++ w ++ t ++ "\n" ++ rest` with `w` nonempty whitespace and `t`
starting with non-whitespace and containing no newline yields `strip(t)`;
text containing no `#` at all yields the fallback `"Document"`. -/
theorem claim_C9_amended_title (pre w t post : List Char) (c0 : Char)
    (hpre : '#' ∉ pre) (hpreLS : pre = [] ∨ pre.getLast? = some '\n')
    (hw : w ≠ []) (hwsp : ∀ c ∈ w, pyIsSpace c = true)
    (hhead : t.head? = some c0) (hc0 : pyIsSpace c0 = false) (hnl : '\n' ∉ t) :
    extract_title (str "# My Title\n\nbody") = str "My Title" ∧
    extract_title (pre ++ '#' :: (w ++ (t ++ '\n' :: post))) = pyStrip t ∧
    (∀ s : List Char, '#' ∉ s → extract_title s = str "Document") := by
  refine ⟨by decide, ?_, ?_⟩
  · have htw0 : (t ++ '\n' :: post).takeWhile pyIsSpace = [] := by
      cases t with
      | nil => simp at hhead
      | cons x t' =>
        rw [List.head?_cons, Option.some.injEq] at hhead
        subst hhead
        rw [List.cons_append, List.takeWhile_cons, if_neg (by simp [hc0])]
    have htw : (w ++ (t ++ '\n' :: post)).takeWhile pyIsSpace = w := by
      rw [takeWhile_space_all _ hwsp, htw0, List.append_nil]
    have hth : tryHeading (w ++ (t ++ '\n' :: post)) = some t := by
      unfold tryHeading
      rw [htw]
      rw [if_neg hw]
      rw [List.drop_left]
      rw [if_pos (by simp)]
      rw [takeWhile_append_stop hnl]
    have hscan : scanTitle ('#' :: (w ++ (t ++ '\n' :: post))) true = some t := by
      unfold scanTitle
      rw [if_pos ⟨rfl, rfl⟩, hth]
    rcases hpreLS with rfl | hlast
    · rw [List.nil_append]
      unfold extract_title
      rw [hscan]
    · unfold extract_title
      rw [scanTitle_skip pre hpre hlast, hscan]
  · intro s hs
    unfold extract_title
    rw [scanTitle_none_of_no_hash hs]

theorem claim_C9_amended_witness :
    ('#' ∉ str "intro\n") ∧ (str "intro\n").getLast? = some '\n' ∧
    str "\n\t" ≠ [] ∧ (∀ c ∈ str "\n\t", pyIsSpace c = true) ∧
    (str "T 1").head? = some 'T' ∧ pyIsSpace 'T' = false ∧ '\n' ∉ str "T 1" ∧
    extract_title
        (str "intro\n" ++ '#' :: (str "\n\t" ++ (str "T 1" ++ '\n' :: str "body"))) =
      pyStrip (str "T 1") :=
  ⟨by decide, by decide, by decide, by decide, by decide, by decide, by decide,
    (claim_C9_amended_title (str "intro\n") (str "\n\t") (str "T 1") (str "body") 'T'
      (by decide) (Or.inr (by decide)) (by decide) (by decide) (by decide) (by decide)
      (by decide)).2.1⟩

/-! # Mermaid round-trip: lemmas for C5 -/

theorem beginsWith_take {p q s : List Char} (h : beginsWith (p ++ q) s = true) :
    beginsWith p s = true := by
  obtain ⟨r, rfl⟩ := (beginsWith_iff (p ++ q) s).1 h
  exact (beginsWith_iff p _).2 ⟨q ++ r, by simp⟩

theorem head?_mem {l : List Char} {x : Char} (h : l.head? = some x) : x ∈ l := by
  cases l with
  | nil => cases h
  | cons c t =>
    rw [List.head?_cons, Option.some.injEq] at h
    rw [← h]
    exact List.mem_cons_self c t

theorem getLast?_mem {l : List Char} {x : Char} (h : l.getLast? = some x) : x ∈ l := by
  rw [← List.head?_reverse] at h
  exact List.mem_reverse.1 (head?_mem h)

theorem getLast?_append_right {l₁ l₂ : List Char} (h : l₂ ≠ []) :
    (l₁ ++ l₂).getLast? = l₂.getLast? := by
  rw [← List.head?_reverse, ← List.head?_reverse, List.reverse_append]
  cases h2 : l₂.reverse with
  | nil => exact absurd (List.reverse_eq_nil_iff.1 h2) h
  | cons a t => rfl

theorem tailOf_getLast {v s : List Char} (hv : tailOf v s) (hne : v ≠ []) :
    v.getLast? = s.getLast? := by
  obtain ⟨u, rfl⟩ := hv
  exact (getLast?_append_right hne).symm

theorem tailOf_subset {v s : List Char} (hv : tailOf v s) {x : Char} (h : x ∈ v) :
    x ∈ s := by
  obtain ⟨u, rfl⟩ := hv
  exact List.mem_append_right u h

theorem take_head {j : Nat} {l : List Char} (hj : 1 ≤ j) :
    (l.take j).head? = l.head? := by
  cases j with
  | zero => omega
  | succ j' =>
    cases l with
    | nil => rfl
    | cons c t => rfl

theorem beginsWith_single {x : Char} {s : List Char} :
    beginsWith [x] s = true ↔ s.head? = some x := by
  cases s with
  | nil =>
    constructor
    · intro h; cases h
    · intro h; cases h
  | cons c t =>
    show (if x = c then beginsWith [] t else false) = true ↔ _
    by_cases hx : x = c
    · rw [if_pos hx]
      subst hx
      simp [beginsWith]
    · rw [if_neg hx]
      constructor
      · intro h; cases h
      · intro h
        rw [List.head?_cons, Option.some.injEq] at h
        exact absurd h.symm hx

theorem mOpen_eq : mOpen = backquote :: backquote :: backquote :: str "mermaid\n" := rfl

theorem fence_eq : str "```" = backquote :: backquote :: backquote :: [] := rfl

theorem endsWith_bq (l : List Char) :
    endsWith (str "`") l = true ↔ l.getLast? = some backquote := by
  show beginsWith (str "`").reverse l.reverse = true ↔ _
  have h1 : (str "`").reverse = [backquote] := rfl
  rw [h1, beginsWith_single, List.head?_reverse]

/-- No occurrence of the opening fence can start strictly inside `A` when `A`
contains no triple backtick, the remainder being `A`'s end followed by the
fence itself. -/
theorem no_mOpen_inside {A R : List Char} (hA : countOccur (str "```") A = 0)
    {v : List Char} (hv : tailOf v A) (hne : v ≠ []) :
    beginsWith mOpen (v ++ (mOpen ++ R)) = false := by
  cases hbw : beginsWith mOpen (v ++ (mOpen ++ R)) with
  | false => rfl
  | true =>
    exfalso
    rcases v with _ | ⟨a, _ | ⟨b, _ | ⟨c, v'⟩⟩⟩
    · exact hne rfl
    · have h1 : ([a] : List Char).length = 1 := rfl
      have hsplit := beginsWith_split hbw (by rw [h1]; decide)
      have h2 : mOpen.drop ([a] : List Char).length = mOpen.drop 1 := rfl
      rw [h2] at hsplit
      have hrest := beginsWith_long hsplit.2 (by decide)
      have hfalse : beginsWith (mOpen.drop 1) mOpen = false := by decide
      rw [hfalse] at hrest
      exact Bool.noConfusion hrest
    · have h1 : ([a, b] : List Char).length = 2 := rfl
      have hsplit := beginsWith_split hbw (by rw [h1]; decide)
      have h2 : mOpen.drop ([a, b] : List Char).length = mOpen.drop 2 := rfl
      rw [h2] at hsplit
      have hrest := beginsWith_long hsplit.2 (by decide)
      have hfalse : beginsWith (mOpen.drop 2) mOpen = false := by decide
      rw [hfalse] at hrest
      exact Bool.noConfusion hrest
    · have hform : (a :: b :: c :: v') ++ (mOpen ++ R) =
          [a, b, c] ++ (v' ++ (mOpen ++ R)) := by simp
      rw [hform] at hbw
      have h1 : ([a, b, c] : List Char).length = 3 := rfl
      have hsplit := beginsWith_split hbw (by rw [h1]; decide)
      have htake : mOpen.take ([a, b, c] : List Char).length =
          [backquote, backquote, backquote] := by rw [h1]; decide
      rw [htake] at hsplit
      obtain ⟨ha, hb2, hc, _⟩ : a = backquote ∧ b = backquote ∧ c = backquote ∧ True := by
        have := hsplit.1
        injection this with h1 this
        injection this with h2 this
        injection this with h3 _
        exact ⟨h1, h2, h3, trivial⟩
      subst ha; subst hb2; subst hc
      have hbv : beginsWith (str "```") (backquote :: backquote :: backquote :: v') = true := by
        have he : backquote :: backquote :: backquote :: v' = str "```" ++ v' := by
          rw [fence_eq]; simp
        rw [he]
        exact beginsWith_append_self _ _
      exact countOccur_ne_zero_of_tail hv hne hbv hA

/-- `findClose` on `D ++ "```" ++ B` yields `(D, B)` when `D` has no triple
backtick and does not end in a backtick. -/
theorem findClose_spec (D B : List Char) (hD : countOccur (str "```") D = 0)
    (hDl : endsWith (str "`") D = false) :
    findClose (D ++ (str "```" ++ B)) = some (D, B) := by
  induction D with
  | nil =>
    rw [List.nil_append, fence_eq]
    simp only [List.cons_append, List.nil_append]
    simp only [findClose]
    rw [if_pos ?_]
    · rfl
    · have he : backquote :: backquote :: backquote :: B = str "```" ++ B := by
        rw [fence_eq]; simp
      rw [he]
      exact beginsWith_append_self _ _
  | cons c D' ih =>
    have hD' : countOccur (str "```") D' = 0 := by
      simp only [countOccur] at hD
      exact Nat.eq_zero_of_add_eq_zero_left hD
    have hgl : ¬(c :: D').getLast? = some backquote := by
      intro h
      rw [← endsWith_bq] at h
      rw [h] at hDl
      cases hDl
    have hDl' : endsWith (str "`") D' = false := by
      cases hD'' : D' with
      | nil => decide
      | cons d1 D'' =>
        cases he : endsWith (str "`") (d1 :: D'') with
        | false => rfl
        | true =>
          exfalso
          apply hgl
          rw [hD'', List.getLast?_cons_cons]
          exact (endsWith_bq _).1 he
    have hbw : beginsWith (str "```") (c :: (D' ++ (str "```" ++ B))) = false := by
      cases hb : beginsWith (str "```") (c :: (D' ++ (str "```" ++ B))) with
      | false => rfl
      | true =>
        exfalso
        obtain ⟨r, hr⟩ := (beginsWith_iff _ _).1 hb
        rw [fence_eq] at hr
        simp only [List.cons_append, List.nil_append] at hr
        injection hr with h1 hr
        cases D' with
        | nil =>
          apply hgl
          rw [h1]
          rfl
        | cons d1 D'' =>
          rw [List.cons_append] at hr
          injection hr with h2 hr
          cases D'' with
          | nil =>
            apply hgl
            rw [List.getLast?_cons_cons, h2]
            rfl
          | cons d2 D3 =>
            rw [List.cons_append] at hr
            injection hr with h3 _
            have hbD : beginsWith (str "```") (c :: d1 :: d2 :: D3) = true := by
              have he : c :: d1 :: d2 :: D3 = str "```" ++ D3 := by
                rw [fence_eq, h1, h2, h3]; simp
              rw [he]
              exact beginsWith_append_self _ _
            exact countOccur_ne_zero_of_tail ⟨[], rfl⟩ (by simp) hbD hD
    rw [List.cons_append]
    simp only [findClose, hbw, Bool.false_eq_true, if_false]
    rw [ih hD' hDl']

theorem preprocessGoF_skip (U : List Char) :
    ∀ (W : List Char) (n fuel : Nat),
      (∀ v, tailOf v U → v ≠ [] → beginsWith mOpen (v ++ W) = false) →
      preprocessGoF (U.length + fuel) (U ++ W) n =
        (U ++ (preprocessGoF fuel W n).1, (preprocessGoF fuel W n).2) := by
  induction U with
  | nil =>
    intro W n fuel _
    simp
  | cons c U' ih =>
    intro W n fuel h
    have hbw : beginsWith mOpen (c :: (U' ++ W)) = false := by
      have := h (c :: U') ⟨[], rfl⟩ (by simp)
      rwa [List.cons_append] at this
    have hlen : (c :: U').length + fuel = (U'.length + fuel) + 1 := by
      simp [List.length_cons]
      omega
    rw [List.cons_append, hlen]
    simp only [preprocessGoF, hbw, Bool.false_eq_true, if_false]
    rw [ih W n fuel
      (fun v hv hne => h v (by obtain ⟨u, rfl⟩ := hv; exact ⟨c :: u, rfl⟩) hne)]
    simp

theorem preprocessGoF_done (B : List Char) :
    ∀ (n fuel : Nat), B.length ≤ fuel → countOccur (str "```") B = 0 →
      preprocessGoF fuel B n = (B, []) := by
  induction B with
  | nil =>
    intro n fuel _ _
    cases fuel <;> rfl
  | cons c t ih =>
    intro n fuel hlen hcnt
    cases fuel with
    | zero => simp at hlen
    | succ f =>
      have hbw : beginsWith mOpen (c :: t) = false := by
        cases hb : beginsWith mOpen (c :: t) with
        | false => rfl
        | true =>
          exfalso
          have h3 : beginsWith (str "```") (c :: t) = true := by
            apply beginsWith_take
            have he : str "```" ++ str "mermaid\n" = mOpen := rfl
            rw [he]
            exact hb
          exact countOccur_ne_zero_of_tail ⟨[], rfl⟩ (by simp) h3 hcnt
      simp only [preprocessGoF, hbw, Bool.false_eq_true, if_false]
      have hcnt' : countOccur (str "```") t = 0 := by
        simp only [countOccur] at hcnt
        exact Nat.eq_zero_of_add_eq_zero_left hcnt
      rw [ih n f (by simp at hlen; omega) hcnt']

/-- `preprocess_mermaid` on a document with exactly one fenced mermaid block:
the block becomes placeholder 0 and the table has the single entry mapping it
to the rendered image block for the stripped diagram source. -/
theorem preprocess_one_block (A D B : List Char)
    (hA : countOccur (str "```") A = 0)
    (hD : countOccur (str "```") D = 0)
    (hDl : endsWith (str "`") D = false)
    (hB : countOccur (str "```") B = 0) :
    preprocess_mermaid (A ++ (mOpen ++ (D ++ (str "```" ++ B)))) =
      (A ++ (placeholderKey 0 ++ B),
        [(placeholderKey 0, mermaidBlock (pyStrip D))]) := by
  show preprocessGoF (A ++ (mOpen ++ (D ++ (str "```" ++ B)))).length
      (A ++ (mOpen ++ (D ++ (str "```" ++ B)))) 0 = _
  have hlen : (A ++ (mOpen ++ (D ++ (str "```" ++ B)))).length =
      A.length + (mOpen ++ (D ++ (str "```" ++ B))).length := by
    rw [List.length_append]
  rw [hlen]
  rw [preprocessGoF_skip A _ 0 _ (fun v hv hne => no_mOpen_inside hA hv hne)]
  have hW : preprocessGoF (mOpen ++ (D ++ (str "```" ++ B))).length
      (mOpen ++ (D ++ (str "```" ++ B))) 0 =
      (placeholderKey 0 ++ B, [(placeholderKey 0, mermaidBlock (pyStrip D))]) := by
    have hWlen : (mOpen ++ (D ++ (str "```" ++ B))).length =
        (10 + (D.length + (3 + B.length))) + 1 := by
      rw [List.length_append, List.length_append, List.length_append,
        show mOpen.length = 11 from rfl, show (str "```").length = 3 from rfl]
      omega
    have hWcons : mOpen ++ (D ++ (str "```" ++ B)) =
        backquote :: backquote :: backquote ::
          (str "mermaid\n" ++ (D ++ (str "```" ++ B))) := by
      rw [mOpen_eq]
      simp
    rw [hWlen, hWcons]
    have hbt : beginsWith mOpen (backquote :: backquote :: backquote ::
        (str "mermaid\n" ++ (D ++ (str "```" ++ B)))) = true := by
      rw [← hWcons]
      exact beginsWith_append_self _ _
    simp only [preprocessGoF, hbt, if_true]
    have hdrop : (backquote :: backquote :: backquote ::
        (str "mermaid\n" ++ (D ++ (str "```" ++ B)))).drop 11 =
        D ++ (str "```" ++ B) := by
      have h8 : (str "mermaid\n").length = 8 := rfl
      show (str "mermaid\n" ++ (D ++ (str "```" ++ B))).drop 8 = _
      rw [← h8, List.drop_left]
    rw [hdrop, findClose_spec D B hD hDl]
    have hdone := preprocessGoF_done B (0 + 1) (10 + (D.length + (3 + B.length)))
      (by omega) hB
    show (placeholderKey 0 ++
        (preprocessGoF (10 + (D.length + (3 + B.length))) B (0 + 1)).1,
      (placeholderKey 0, mermaidBlock (pyStrip D)) ::
        (preprocessGoF (10 + (D.length + (3 + B.length))) B (0 + 1)).2) = _
    rw [hdone]
  rw [hW]

theorem pyReplaceF_id (pat rep : List Char) :
    ∀ (s : List Char) (fuel : Nat), s.length ≤ fuel → pat ≠ [] →
      countOccur pat s = 0 → pyReplaceF pat rep fuel s = s := by
  intro s
  induction s with
  | nil =>
    intro fuel _ _ _
    cases fuel <;> rfl
  | cons c t ih =>
    intro fuel hlen hpat hcnt
    cases fuel with
    | zero => simp at hlen
    | succ f =>
      have hbw : beginsWith pat (c :: t) = false :=
        beginsWith_false_of_count_zero hcnt ⟨[], rfl⟩ (by simp)
      have hcond : ¬(pat ≠ [] ∧ beginsWith pat (c :: t) = true) := by
        intro ⟨_, h2⟩
        rw [hbw] at h2
        exact Bool.noConfusion h2
      simp only [pyReplaceF, if_neg hcond]
      have hcnt' : countOccur pat t = 0 := by
        simp only [countOccur] at hcnt
        exact Nat.eq_zero_of_add_eq_zero_left hcnt
      rw [ih f (by simp at hlen; omega) hpat hcnt']

theorem pyReplace_id {s pat rep : List Char} (hpat : pat ≠ [])
    (h : countOccur pat s = 0) : pyReplace s pat rep = s :=
  pyReplaceF_id pat rep s s.length le_rfl hpat h

theorem pyReplaceF_single (pat rep Q : List Char) (hpat : pat ≠ [])
    (hQ : countOccur pat Q = 0) :
    ∀ (P : List Char) (fuel : Nat), (P ++ (pat ++ Q)).length ≤ fuel →
      (∀ v, tailOf v P → v ≠ [] → beginsWith pat (v ++ (pat ++ Q)) = false) →
      pyReplaceF pat rep fuel (P ++ (pat ++ Q)) = P ++ (rep ++ Q) := by
  intro P
  induction P with
  | nil =>
    intro fuel hlen _
    rw [List.nil_append, List.nil_append]
    cases pat with
    | nil => exact absurd rfl hpat
    | cons p0 pt =>
      rw [List.cons_append]
      cases fuel with
      | zero => simp [List.length_append] at hlen
      | succ f =>
        have heq : p0 :: (pt ++ Q) = (p0 :: pt) ++ Q := rfl
        have hbw : beginsWith (p0 :: pt) (p0 :: (pt ++ Q)) = true := by
          rw [heq]
          exact beginsWith_append_self _ _
        have hcond : (p0 :: pt ≠ []) ∧ beginsWith (p0 :: pt) (p0 :: (pt ++ Q)) = true :=
          ⟨by simp, hbw⟩
        simp only [pyReplaceF, if_pos hcond]
        have hdrop : (p0 :: (pt ++ Q)).drop (p0 :: pt).length = Q := by
          rw [heq, List.drop_left]
        rw [hdrop]
        rw [pyReplaceF_id (p0 :: pt) rep Q f ?_ (by simp) hQ]
        simp [List.length_append] at hlen
        omega
  | cons a P' ih =>
    intro fuel hlen hcond
    rw [List.cons_append]
    cases fuel with
    | zero => simp [List.length_append] at hlen
    | succ f =>
      have hbw : beginsWith pat (a :: (P' ++ (pat ++ Q))) = false := by
        have := hcond (a :: P') ⟨[], rfl⟩ (by simp)
        rwa [List.cons_append] at this
      have hc : ¬(pat ≠ [] ∧ beginsWith pat (a :: (P' ++ (pat ++ Q))) = true) := by
        intro ⟨_, h2⟩
        rw [hbw] at h2
        exact Bool.noConfusion h2
      simp only [pyReplaceF, if_neg hc]
      rw [ih f (by simp [List.length_append] at hlen ⊢; omega)
        (fun v hv hne => hcond v (by obtain ⟨u, rfl⟩ := hv; exact ⟨a :: u, rfl⟩) hne)]
      rw [List.cons_append]

theorem pyReplace_single {pat rep P Q : List Char} (hpat : pat ≠ [])
    (hQ : countOccur pat Q = 0)
    (hcond : ∀ v, tailOf v P → v ≠ [] → beginsWith pat (v ++ (pat ++ Q)) = false) :
    pyReplace (P ++ (pat ++ Q)) pat rep = P ++ (rep ++ Q) :=
  pyReplaceF_single pat rep Q hpat hQ P (P ++ (pat ++ Q)).length le_rfl hcond

/-- A pattern with no nontrivial self-overlap and no occurrence in `P` cannot
match starting strictly inside `P` when `P` is followed by the pattern. -/
theorem no_shift_occurrence {pat P Q : List Char}
    (hov : ∀ j, j < pat.length → j = 0 ∨ beginsWith (pat.drop j) pat = false)
    (hcP : countOccur pat P = 0) :
    ∀ v, tailOf v P → v ≠ [] → beginsWith pat (v ++ (pat ++ Q)) = false := by
  intro v hv hne
  cases hbw : beginsWith pat (v ++ (pat ++ Q)) with
  | false => rfl
  | true =>
    exfalso
    rcases Nat.lt_or_ge v.length pat.length with hlt | hge
    · have hsplit := beginsWith_split hbw hlt
      have hlong := beginsWith_long hsplit.2 (by rw [List.length_drop]; omega)
      rcases hov v.length hlt with h0 | hfalse
      · exact hne (List.length_eq_zero.mp h0)
      · rw [hfalse] at hlong
        exact Bool.noConfusion hlong
    · have hlong := beginsWith_long hbw hge
      exact countOccur_ne_zero_of_tail hv hne hlong hcP

theorem key_ne_nil : placeholderKey 0 ≠ [] := by decide

theorem key_overlap : ∀ j, j < (placeholderKey 0).length →
    j = 0 ∨ beginsWith ((placeholderKey 0).drop j) (placeholderKey 0) = false := by
  decide

theorem ptag_ne_nil : str "<p>" ++ placeholderKey 0 ++ str "</p>" ≠ [] := by decide

theorem ptag_overlap : ∀ j, j < (str "<p>" ++ placeholderKey 0 ++ str "</p>").length →
    j = 0 ∨ beginsWith ((str "<p>" ++ placeholderKey 0 ++ str "</p>").drop j)
      (str "<p>" ++ placeholderKey 0 ++ str "</p>") = false := by
  decide

theorem lt_not_in_key : '<' ∉ placeholderKey 0 := by decide

theorem gt_not_in_key : '>' ∉ placeholderKey 0 := by decide

theorem b64Char_mem (n : Nat) : b64Char n ∈ b64Alphabet := by
  show b64Alphabet.getD n 'A' ∈ b64Alphabet
  rcases getD_mem_or_eq b64Alphabet n 'A' with h | h
  · exact h
  · rw [h]
    decide

theorem b64_mem {x : Char} : ∀ bs : List Nat, x ∈ b64Encode bs →
    x ∈ b64Alphabet ∨ x = '=' := by
  intro bs
  induction bs using b64Encode.induct with
  | case1 =>
    intro h
    simp [b64Encode] at h
  | case2 a =>
    intro h
    simp only [b64Encode, List.mem_cons, List.not_mem_nil, or_false] at h
    rcases h with h | h | h | h
    · exact Or.inl (by rw [h]; exact b64Char_mem _)
    · exact Or.inl (by rw [h]; exact b64Char_mem _)
    · exact Or.inr h
    · exact Or.inr h
  | case3 a b =>
    intro h
    simp only [b64Encode, List.mem_cons, List.not_mem_nil, or_false] at h
    rcases h with h | h | h | h
    · exact Or.inl (by rw [h]; exact b64Char_mem _)
    · exact Or.inl (by rw [h]; exact b64Char_mem _)
    · exact Or.inl (by rw [h]; exact b64Char_mem _)
    · exact Or.inr h
  | case4 a b c rest ih =>
    intro h
    simp only [b64Encode, List.mem_cons] at h
    rcases h with h | h | h | h | h
    · exact Or.inl (by rw [h]; exact b64Char_mem _)
    · exact Or.inl (by rw [h]; exact b64Char_mem _)
    · exact Or.inl (by rw [h]; exact b64Char_mem _)
    · exact Or.inl (by rw [h]; exact b64Char_mem _)
    · exact ih h

theorem lt_not_in_b64 (bs : List Nat) : '<' ∉ b64Encode bs := by
  intro h
  rcases b64_mem bs h with h2 | h2
  · exact absurd h2 (by decide)
  · exact absurd h2 (by decide)

theorem mermaidBlock_cons (d : List Char) :
    mermaidBlock d = '<' :: (str "img class=\"mermaid-img\" src=\"" ++
      (mermaid_ink_url d ++ str "\" alt=\"Mermaid diagram\" />")) := by
  show str "<img class=\"mermaid-img\" src=\"" ++ mermaid_ink_url d ++
      str "\" alt=\"Mermaid diagram\" />" = _
  rw [show str "<img class=\"mermaid-img\" src=\"" =
    '<' :: str "img class=\"mermaid-img\" src=\"" from rfl]
  simp [List.append_assoc]

theorem lt_not_in_block_tail (d : List Char) :
    '<' ∉ (str "img class=\"mermaid-img\" src=\"" ++
      (mermaid_ink_url d ++ str "\" alt=\"Mermaid diagram\" />")) := by
  intro h
  rcases List.mem_append.1 h with h | h
  · exact absurd h (by decide)
  rcases List.mem_append.1 h with h | h
  · unfold mermaid_ink_url at h
    rcases List.mem_append.1 h with h | h
    · rcases List.mem_append.1 h with h | h
      · exact absurd h (by decide)
      · exact lt_not_in_b64 _ h
    · exact absurd h (by decide)
  · exact absurd h (by decide)

theorem mermaidBlock_head (d : List Char) :
    ∃ r, mermaidBlock d = '<' :: r ∧ '<' ∉ r :=
  ⟨_, mermaidBlock_cons d, lt_not_in_block_tail d⟩

theorem mermaidBlock_last (d : List Char) : (mermaidBlock d).getLast? = some '>' := by
  show ((str "<img class=\"mermaid-img\" src=\"" ++ mermaid_ink_url d) ++
      str "\" alt=\"Mermaid diagram\" />").getLast? = some '>'
  rw [getLast?_append_right (by decide)]
  decide

theorem count_key_clean {P Q : List Char} (d : List Char)
    (hkP : countOccur (placeholderKey 0) P = 0)
    (hkQ : countOccur (placeholderKey 0) Q = 0)
    (hkb : countOccur (placeholderKey 0) (mermaidBlock d) = 0) :
    countOccur (placeholderKey 0) (P ++ (mermaidBlock d ++ Q)) = 0 := by
  have hstep1 : countOccur (placeholderKey 0) (P ++ (mermaidBlock d ++ Q)) =
      countOccur (placeholderKey 0) (mermaidBlock d ++ Q) := by
    apply countOccur_append_zero
    intro v hv hne
    cases hbw : beginsWith (placeholderKey 0) (v ++ (mermaidBlock d ++ Q)) with
    | false => rfl
    | true =>
      exfalso
      rcases Nat.lt_or_ge v.length (placeholderKey 0).length with hlt | hge
      · have hsplit := beginsWith_split hbw hlt
        have hd : ((placeholderKey 0).drop v.length) ≠ [] := by
          intro hc
          have hlc := congrArg List.length hc
          rw [List.length_drop] at hlc
          simp at hlc
          omega
        have hh := beginsWith_head hsplit.2 hd
        obtain ⟨r, hr, _⟩ := mermaidBlock_head d
        have hheadblk : (mermaidBlock d ++ Q).head? = some '<' := by
          rw [hr, List.cons_append, List.head?_cons]
        rw [hheadblk] at hh
        have hmem := head?_mem hh.symm
        exact absurd (List.drop_subset _ _ hmem) lt_not_in_key
      · have hlong := beginsWith_long hbw hge
        exact countOccur_ne_zero_of_tail hv hne hlong hkP
  have hstep2 : countOccur (placeholderKey 0) (mermaidBlock d ++ Q) =
      countOccur (placeholderKey 0) Q := by
    apply countOccur_append_zero
    intro v hv hne
    cases hbw : beginsWith (placeholderKey 0) (v ++ Q) with
    | false => rfl
    | true =>
      exfalso
      rcases Nat.lt_or_ge v.length (placeholderKey 0).length with hlt | hge
      · have hsplit := beginsWith_split hbw hlt
        have hlast := tailOf_getLast hv hne
        rw [mermaidBlock_last d] at hlast
        have hmem := getLast?_mem hlast
        rw [hsplit.1] at hmem
        exact absurd (List.take_subset _ _ hmem) gt_not_in_key
      · have hlong := beginsWith_long hbw hge
        exact countOccur_ne_zero_of_tail hv hne hlong hkb
  rw [hstep1, hstep2, hkQ]

theorem count_block_one {P Q : List Char} (d : List Char)
    (hbP : countOccur (mermaidBlock d) P = 0)
    (hbQ : countOccur (mermaidBlock d) Q = 0) :
    countOccur (mermaidBlock d) (P ++ (mermaidBlock d ++ Q)) = 1 := by
  obtain ⟨r, hr, hnr⟩ := mermaidBlock_head d
  have hlenr : (mermaidBlock d).length = r.length + 1 := by
    rw [hr, List.length_cons]
  have hstep1 : countOccur (mermaidBlock d) (P ++ (mermaidBlock d ++ Q)) =
      countOccur (mermaidBlock d) (mermaidBlock d ++ Q) := by
    apply countOccur_append_zero
    intro v hv hne
    cases hbw : beginsWith (mermaidBlock d) (v ++ (mermaidBlock d ++ Q)) with
    | false => rfl
    | true =>
      exfalso
      rcases Nat.lt_or_ge v.length (mermaidBlock d).length with hlt | hge
      · have hsplit := beginsWith_split hbw hlt
        have hd : ((mermaidBlock d).drop v.length) ≠ [] := by
          intro hc
          have hlc := congrArg List.length hc
          rw [List.length_drop] at hlc
          simp at hlc
          omega
        have hh := beginsWith_head hsplit.2 hd
        have hheadblk : (mermaidBlock d ++ Q).head? = some '<' := by
          rw [hr, List.cons_append, List.head?_cons]
        rw [hheadblk] at hh
        have hmem := head?_mem hh.symm
        obtain ⟨j', hj⟩ : ∃ j', v.length = j' + 1 :=
          ⟨v.length - 1, by have := List.length_pos.2 hne; omega⟩
        rw [hj, hr] at hmem
        have hdropeq : (('<' : Char) :: r).drop (j' + 1) = r.drop j' := rfl
        rw [hdropeq] at hmem
        exact absurd (List.drop_subset _ _ hmem) hnr
      · have hlong := beginsWith_long hbw hge
        exact countOccur_ne_zero_of_tail hv hne hlong hbP
  have hmid : countOccur (mermaidBlock d) (mermaidBlock d ++ Q) =
      1 + countOccur (mermaidBlock d) (r ++ Q) := by
    have he : mermaidBlock d ++ Q = '<' :: (r ++ Q) := by
      rw [hr, List.cons_append]
    rw [he]
    have hbst : beginsWith (mermaidBlock d) ('<' :: (r ++ Q)) = true := by
      rw [← he]
      exact beginsWith_append_self _ _
    simp only [countOccur, hbst, if_true]
  have hrest : countOccur (mermaidBlock d) (r ++ Q) =
      countOccur (mermaidBlock d) Q := by
    apply countOccur_append_zero
    intro v hv hne
    cases hbw : beginsWith (mermaidBlock d) (v ++ Q) with
    | false => rfl
    | true =>
      exfalso
      have hvr : v.length ≤ r.length := by
        obtain ⟨u, hu⟩ := hv
        have := congrArg List.length hu
        rw [List.length_append] at this
        omega
      have hlt : v.length < (mermaidBlock d).length := by omega
      have hsplit := beginsWith_split hbw hlt
      have hv1 : 1 ≤ v.length := List.length_pos.2 hne
      have hheadv : v.head? = some '<' := by
        rw [hsplit.1, take_head hv1, hr, List.head?_cons]
      have hmem := head?_mem hheadv
      exact absurd (tailOf_subset hv hmem) hnr
  rw [hstep1, hmid, hrest, hbQ]

theorem postprocess_single (h k b : List Char) :
    postprocess_placeholders h [(k, b)] =
      pyReplace (pyReplace h (str "<p>" ++ k ++ str "</p>") b) k b := rfl

/-! # Claim C5 -/

/-- C5: on a document with exactly one fenced mermaid block, extraction yields
the text with the block replaced by placeholder 0 and a one-entry table; after
an arbitrary markdown conversion that keeps the token once — bare or wrapped in
a paragraph — re-insertion produces the surrounding text with exactly one
rendered-image block and zero occurrences of the placeholder token.  The
hypotheses on `P`, `Q` and the image block state the spec's collision-freeness
of the synthetic token (and that the converter emitted the token exactly once,
unwrapped in the bare case). -/
theorem claim_C5_placeholder_roundtrip (A D B P Q : List Char)
    (hA : countOccur (str "```") A = 0)
    (hD : countOccur (str "```") D = 0)
    (hDl : endsWith (str "`") D = false)
    (hB : countOccur (str "```") B = 0)
    (hkP : countOccur (placeholderKey 0) P = 0)
    (hkQ : countOccur (placeholderKey 0) Q = 0)
    (hkb : countOccur (placeholderKey 0) (mermaidBlock (pyStrip D)) = 0)
    (hbP : countOccur (mermaidBlock (pyStrip D)) P = 0)
    (hbQ : countOccur (mermaidBlock (pyStrip D)) Q = 0)
    (hbare : countOccur (str "<p>" ++ placeholderKey 0 ++ str "</p>")
      (P ++ placeholderKey 0 ++ Q) = 0) :
    preprocess_mermaid (A ++ str "```mermaid\n" ++ D ++ str "```" ++ B) =
      (A ++ placeholderKey 0 ++ B,
        [(placeholderKey 0, mermaidBlock (pyStrip D))]) ∧
    postprocess_placeholders (P ++ placeholderKey 0 ++ Q)
        (preprocess_mermaid (A ++ str "```mermaid\n" ++ D ++ str "```" ++ B)).2 =
      P ++ mermaidBlock (pyStrip D) ++ Q ∧
    postprocess_placeholders (P ++ str "<p>" ++ placeholderKey 0 ++ str "</p>" ++ Q)
        (preprocess_mermaid (A ++ str "```mermaid\n" ++ D ++ str "```" ++ B)).2 =
      P ++ mermaidBlock (pyStrip D) ++ Q ∧
    countOccur (placeholderKey 0) (P ++ mermaidBlock (pyStrip D) ++ Q) = 0 ∧
    countOccur (mermaidBlock (pyStrip D)) (P ++ mermaidBlock (pyStrip D) ++ Q) = 1 := by
  have hpre : preprocess_mermaid (A ++ str "```mermaid\n" ++ D ++ str "```" ++ B) =
      (A ++ placeholderKey 0 ++ B,
        [(placeholderKey 0, mermaidBlock (pyStrip D))]) := by
    have hassoc : A ++ str "```mermaid\n" ++ D ++ str "```" ++ B =
        A ++ (mOpen ++ (D ++ (str "```" ++ B))) := by
      rw [show str "```mermaid\n" = mOpen from rfl]
      simp [List.append_assoc]
    rw [hassoc, preprocess_one_block A D B hA hD hDl hB]
    simp [List.append_assoc]
  refine ⟨hpre, ?_, ?_, ?_, ?_⟩
  · rw [hpre]
    rw [postprocess_single]
    rw [pyReplace_id ptag_ne_nil hbare]
    rw [show P ++ placeholderKey 0 ++ Q = P ++ (placeholderKey 0 ++ Q) from
      List.append_assoc P _ Q]
    rw [pyReplace_single key_ne_nil hkQ (no_shift_occurrence key_overlap hkP)]
    rw [← List.append_assoc]
  · rw [hpre]
    rw [postprocess_single]
    have hP' : countOccur (str "<p>" ++ placeholderKey 0 ++ str "</p>") P = 0 :=
      countOccur_zero_of_inner (str "<p>") (str "</p>") rfl hkP key_ne_nil
    have hQ' : countOccur (str "<p>" ++ placeholderKey 0 ++ str "</p>") Q = 0 :=
      countOccur_zero_of_inner (str "<p>") (str "</p>") rfl hkQ key_ne_nil
    have halign : P ++ str "<p>" ++ placeholderKey 0 ++ str "</p>" ++ Q =
        P ++ ((str "<p>" ++ placeholderKey 0 ++ str "</p>") ++ Q) := by
      simp [List.append_assoc]
    rw [halign]
    rw [pyReplace_single ptag_ne_nil hQ' (no_shift_occurrence ptag_overlap hP')]
    rw [pyReplace_id key_ne_nil (count_key_clean (pyStrip D) hkP hkQ hkb)]
    rw [← List.append_assoc]
  · rw [show P ++ mermaidBlock (pyStrip D) ++ Q =
      P ++ (mermaidBlock (pyStrip D) ++ Q) from List.append_assoc P _ Q]
    exact count_key_clean (pyStrip D) hkP hkQ hkb
  · rw [show P ++ mermaidBlock (pyStrip D) ++ Q =
      P ++ (mermaidBlock (pyStrip D) ++ Q) from List.append_assoc P _ Q]
    exact count_block_one (pyStrip D) hbP hbQ

theorem claim_C5_witness :
    countOccur (str "```") (str "Intro\n") = 0 ∧
    countOccur (placeholderKey 0) (str "<h1>T</h1>\n") = 0 ∧
    postprocess_placeholders
        (str "<h1>T</h1>\n" ++ placeholderKey 0 ++ str "\n<p>x</p>")
        (preprocess_mermaid (str "Intro\n" ++ str "```mermaid\n" ++ str "graph TD" ++
          str "```" ++ str "\nTail")).2 =
      str "<h1>T</h1>\n" ++ mermaidBlock (pyStrip (str "graph TD")) ++ str "\n<p>x</p>" :=
  ⟨by decide, by decide,
    (claim_C5_placeholder_roundtrip (str "Intro\n") (str "graph TD") (str "\nTail")
      (str "<h1>T</h1>\n") (str "\n<p>x</p>") (by decide) (by decide) (by decide)
      (by decide) (by decide) (by decide) (by decide) (by decide) (by decide)
      (by decide)).2.1⟩

theorem claim_C10_witness :
    ¬((str "b.html#sec").head? = some '#' ∨
        beginsWith (str "http") (str "b.html#sec") = true) ∧
    rewrite_cross_tag [(str "b.html", str "https://wiki/b")] (str " ")
        (str " class=\"x\" target=\"_blank\"") (str "b.html#sec") (str "text") =
      str "<a href=\"https://wiki/b\">text</a>" :=
  ⟨by decide,
    ((claim_C10_mapped_tag_shape [(str "b.html", str "https://wiki/b")] (str " ")
        (str "  ") (str " class=\"x\" target=\"_blank\"") [] (str "b.html#sec")
        (str "text") (str "https://wiki/b") (by decide)).1 (by decide)).1⟩

end MdSite
